import Mathlib

/-!
# Verification of the Py-Algo linked binary tree library

Shallow embedding of `src/trees/linked_binary_tree.py`, `src/trees/tree.py`
and `src/queue/queue.py`.

Modelling conventions:
* Python `_Node` objects live on one global arena (`Heap`): a list of nodes
  indexed by `Nat`.  An index is the identity of the node object, so the
  Python identity checks (`is`) become index equality.
* A `LinkedBinaryTree` instance is a record of its object identity (`id`),
  its Python class (`pytype`, for the `type(self) is type(t1)` check in
  `_attach`), its `_root` reference and its `_size` counter.  `_size` is an
  `Int` because Python integers are unbounded and `delete` decrements
  unconditionally.
* A `Position` is the pair of its `_container` (tree identity) and `_node`
  (arena index), exactly the two fields of the Python class.
* Python exceptions become an error value; each mutating method returns the
  error-or-result together with the state at the moment it returned or
  raised, so partial mutation before a raise is representable.
* Generators are modelled as the list of their yielded values; the bounded
  recursion depth / loop count of Python is modelled by a fuel argument
  (`heap.length + 1` is enough fuel on any well-formed state).
-/

namespace PyAlgo

/-- Python exceptions raised by the library: `TypeError`, `ValueError`,
the `Empty` exception of `queue.py`, `AttributeError` (attribute access on
`None`), and `RecursionError` (fuel exhaustion of a Python recursion). -/
inductive PyErr : Type
  | typeErr (msg : String)
  | valueErr (msg : String)
  | emptyErr (msg : String)
  | attrErr (msg : String)
  | recursionErr
deriving Repr, DecidableEq

instance {ε β : Type} [DecidableEq ε] [DecidableEq β] :
    DecidableEq (Except ε β) := fun a b =>
  match a, b with
  | .error e1, .error e2 =>
    if he : e1 = e2 then isTrue (by rw [he])
    else isFalse (fun hc => he (Except.error.inj hc))
  | .ok a1, .ok a2 =>
    if ha : a1 = a2 then isTrue (by rw [ha])
    else isFalse (fun hc => ha (Except.ok.inj hc))
  | .error _, .ok _ => isFalse (fun hc => Except.noConfusion hc)
  | .ok _, .error _ => isFalse (fun hc => Except.noConfusion hc)

/-- `LinkedBinaryTree._Node`: an element plus optional references to the
parent, left child and right child (arena indices). -/
structure PyNode (α : Type) : Type where
  element : α
  parent : Option Nat
  left : Option Nat
  right : Option Nat
deriving Repr, DecidableEq

instance {α : Type} [Inhabited α] : Inhabited (PyNode α) :=
  ⟨⟨default, none, none, none⟩⟩

/-- The arena of all `_Node` objects ever created. -/
abbrev Heap (α : Type) : Type := List (PyNode α)

/-- The per-instance state of a `LinkedBinaryTree`: object identity,
Python class, `_root` and `_size`. -/
structure LBT : Type where
  id : Nat
  pytype : Nat
  root : Option Nat
  size : Int
deriving Repr, DecidableEq

/-- `LinkedBinaryTree.Position`: the `_container` (tree identity) and the
`_node` (arena index). -/
structure Pos : Type where
  container : Nat
  node : Nat
deriving Repr, DecidableEq

variable {α : Type}

/-- Dereference a node object.  Genuine positions always hold in-range
indices; the default node is only returned on indices no Python object
corresponds to. -/
def nodeAt [Inhabited α] (h : Heap α) (i : Nat) : PyNode α :=
  h.getD i default

/-- Overwrite the node object at index `i` (a Python field assignment is an
overwrite of the whole record with one field changed). -/
def setNode (h : Heap α) (i : Nat) (n : PyNode α) : Heap α :=
  h.set i n

/-- `LinkedBinaryTree._validate`: checks that `p._container is self` and
that `p._node._parent is not p._node` (the deprecated-node convention), and
returns the node, here by its index.  The `isinstance` check of the source
cannot fail in a typed embedding; a stray index (no such node object) is
mapped to the same `TypeError`. -/
def validate [Inhabited α] (h : Heap α) (t : LBT) (p : Pos) : Except PyErr Nat :=
  if p.container ≠ t.id then
    .error (.valueErr "p does not belong to this container")
  else
    match h.get? p.node with
    | none => .error (.typeErr "p must be of proper Position type")
    | some n =>
      if n.parent = some p.node then .error (.valueErr "p is no longer valid")
      else .ok p.node

/-- `LinkedBinaryTree._make_position`: wrap a node reference, or `None`. -/
def mkPos (t : LBT) (o : Option Nat) : Option Pos :=
  o.map (fun i => ⟨t.id, i⟩)

/-- `LinkedBinaryTree.root`. -/
def rootPos (t : LBT) : Option Pos :=
  mkPos t t.root

/-- `Position.element`. -/
def posElement [Inhabited α] (h : Heap α) (p : Pos) : α :=
  (nodeAt h p.node).element

/-- `LinkedBinaryTree.parent`. -/
def parentOp [Inhabited α] (h : Heap α) (t : LBT) (p : Pos) :
    Except PyErr (Option Pos) :=
  (validate h t p).map (fun i => mkPos t (nodeAt h i).parent)

/-- `LinkedBinaryTree.left`. -/
def leftOp [Inhabited α] (h : Heap α) (t : LBT) (p : Pos) :
    Except PyErr (Option Pos) :=
  (validate h t p).map (fun i => mkPos t (nodeAt h i).left)

/-- `LinkedBinaryTree.right`. -/
def rightOp [Inhabited α] (h : Heap α) (t : LBT) (p : Pos) :
    Except PyErr (Option Pos) :=
  (validate h t p).map (fun i => mkPos t (nodeAt h i).right)

/-- `LinkedBinaryTree.num_children`. -/
def numChildren [Inhabited α] (h : Heap α) (t : LBT) (p : Pos) :
    Except PyErr Nat :=
  (validate h t p).map (fun i =>
    (if (nodeAt h i).left ≠ none then 1 else 0) +
    (if (nodeAt h i).right ≠ none then 1 else 0))

/-- `Tree.is_leaf`: `num_children(p) == 0`. -/
def isLeaf [Inhabited α] (h : Heap α) (t : LBT) (p : Pos) : Except PyErr Bool :=
  (numChildren h t p).map (fun c => c = 0)

/-- `Tree.is_empty`: `len(self) == 0`. -/
def isEmptyT (t : LBT) : Bool :=
  t.size = 0

/-- `LinkedBinaryTree._add_root`: raise if a root exists, else set
`_size = 1`, create the node and return its position. -/
def addRoot [Inhabited α] (h : Heap α) (t : LBT) (e : α) :
    (Except PyErr Pos) × Heap α × LBT :=
  if t.root ≠ none then (.error (.valueErr "Root exists!"), h, t)
  else
    let j := h.length
    let h1 := h ++ [⟨e, none, none, none⟩]
    let t1 : LBT := { t with size := 1, root := some j }
    (.ok ⟨t.id, j⟩, h1, t1)

/-- `LinkedBinaryTree._add_left`: validate, raise if the left slot is
occupied, else bump `_size`, create the child with its parent link and hook
it into the left slot. -/
def addLeft [Inhabited α] (h : Heap α) (t : LBT) (p : Pos) (e : α) :
    (Except PyErr Pos) × Heap α × LBT :=
  match validate h t p with
  | .error er => (.error er, h, t)
  | .ok i =>
    if (nodeAt h i).left ≠ none then
      (.error (.valueErr "Left child already exist"), h, t)
    else
      let j := h.length
      let h1 := setNode h i { nodeAt h i with left := some j }
      let h2 := h1 ++ [⟨e, some i, none, none⟩]
      let t1 : LBT := { t with size := t.size + 1 }
      (.ok ⟨t.id, j⟩, h2, t1)

/-- `LinkedBinaryTree._add_right`: mirror image of `_add_left`. -/
def addRight [Inhabited α] (h : Heap α) (t : LBT) (p : Pos) (e : α) :
    (Except PyErr Pos) × Heap α × LBT :=
  match validate h t p with
  | .error er => (.error er, h, t)
  | .ok i =>
    if (nodeAt h i).right ≠ none then
      (.error (.valueErr "Right child already exist"), h, t)
    else
      let j := h.length
      let h1 := setNode h i { nodeAt h i with right := some j }
      let h2 := h1 ++ [⟨e, some i, none, none⟩]
      let t1 : LBT := { t with size := t.size + 1 }
      (.ok ⟨t.id, j⟩, h2, t1)

/-- `LinkedBinaryTree.replace`: validate, save the old element, store the
new one, return the old.  The tree record (`_root`, `_size`) is untouched,
so only the heap is returned. -/
def replaceOp [Inhabited α] (h : Heap α) (t : LBT) (p : Pos) (e : α) :
    (Except PyErr α) × Heap α :=
  match validate h t p with
  | .error er => (.error er, h)
  | .ok i => (.ok (nodeAt h i).element, setNode h i { nodeAt h i with element := e })

/-- `LinkedBinaryTree.delete`, in the statement order of the source:
validate; raise on two children; `child = node._left if node._left else
node._right`; rewire the child's parent; rewire the root or the former
parent's child slot (an `AttributeError` surfaces when a non-root node has
no parent, after the child rewiring already happened); decrement `_size`;
deprecate the node (`node._parent = node`); return `node._element`. -/
def delete [Inhabited α] (h : Heap α) (t : LBT) (p : Pos) :
    (Except PyErr α) × Heap α × LBT :=
  match validate h t p with
  | .error er => (.error er, h, t)
  | .ok i =>
    match numChildren h t p with
    | .error er => (.error er, h, t)
    | .ok cnt =>
      if cnt = 2 then
        (.error (.valueErr "p has 2 children and cannot be deleted."), h, t)
      else
        let n := nodeAt h i
        let child : Option Nat := if n.left ≠ none then n.left else n.right
        let h1 := match child with
          | some c => setNode h c { nodeAt h c with parent := n.parent }
          | none => h
        if t.root = some i then
          let t1 : LBT := { t with root := child, size := t.size - 1 }
          let h2 := setNode h1 i { nodeAt h1 i with parent := some i }
          (.ok (nodeAt h2 i).element, h2, t1)
        else
          match (nodeAt h1 i).parent with
          | none =>
            (.error (.attrErr "NoneType object has no attribute"), h1, t)
          | some q =>
            let h2 :=
              if (nodeAt h1 q).left = some i then
                setNode h1 q { nodeAt h1 q with left := child }
              else
                setNode h1 q { nodeAt h1 q with right := child }
            let t1 : LBT := { t with size := t.size - 1 }
            let h3 := setNode h2 i { nodeAt h2 i with parent := some i }
            (.ok (nodeAt h3 i).element, h3, t1)

/-- `LinkedBinaryTree._attach`, in the statement order of the source:
validate `p`; raise unless `p` is a leaf; raise unless the three trees have
the same Python class; set `self._size = len(t1) + len(t2)`; if `t1` is
nonempty splice its root into the left slot and empty `t1`; same for `t2`
on the right.  Distinct tree records model distinct Python instances. -/
def attachOp [Inhabited α] (h : Heap α) (s : LBT) (p : Pos) (t1 t2 : LBT) :
    (Except PyErr Unit) × Heap α × LBT × LBT × LBT :=
  match validate h s p with
  | .error er => (.error er, h, s, t1, t2)
  | .ok i =>
    match isLeaf h s p with
    | .error er => (.error er, h, s, t1, t2)
    | .ok leaf =>
      if ¬leaf then (.error (.valueErr "position must be a leaf"), h, s, t1, t2)
      else if ¬(s.pytype = t1.pytype ∧ t1.pytype = t2.pytype) then
        (.error (.typeErr "Tree types must match"), h, s, t1, t2)
      else
        let s1 : LBT := { s with size := t1.size + t2.size }
        if t1.size ≠ 0 then
          match t1.root with
          | none => (.error (.attrErr "NoneType object has no attribute"), h, s1, t1, t2)
          | some r1 =>
            let hA := setNode h r1 { nodeAt h r1 with parent := some i }
            let hB := setNode hA i { nodeAt hA i with left := some r1 }
            let t1A : LBT := { t1 with root := none, size := 0 }
            if t2.size ≠ 0 then
              match t2.root with
              | none => (.error (.attrErr "NoneType object has no attribute"), hB, s1, t1A, t2)
              | some r2 =>
                let hC := setNode hB r2 { nodeAt hB r2 with parent := some i }
                let hD := setNode hC i { nodeAt hC i with right := some r2 }
                let t2A : LBT := { t2 with root := none, size := 0 }
                (.ok (), hD, s1, t1A, t2A)
            else (.ok (), hB, s1, t1A, t2)
        else
          if t2.size ≠ 0 then
            match t2.root with
            | none => (.error (.attrErr "NoneType object has no attribute"), h, s1, t1, t2)
            | some r2 =>
              let hC := setNode h r2 { nodeAt h r2 with parent := some i }
              let hD := setNode hC i { nodeAt hC i with right := some r2 }
              let t2A : LBT := { t2 with root := none, size := 0 }
              (.ok (), hD, s1, t1, t2A)
          else (.ok (), h, s1, t1, t2)

/-- `LinkedBinaryTree._subtree_inorder`, as the list of yielded positions:
left subtree (when a left child exists), then `p`, then right subtree (when
a right child exists).  `self.left(p)` and `self.right(p)` validate and may
raise; `fuel` bounds the recursion depth as Python's recursion limit does. -/
def subtreeInorder [Inhabited α] (h : Heap α) (t : LBT) :
    Nat → Pos → Except PyErr (List Pos)
  | 0, _ => .error .recursionErr
  | fuel + 1, p => do
    let lo ← leftOp h t p
    let leftPart ← match lo with
      | some lp => subtreeInorder h t fuel lp
      | none => pure []
    let ro ← rightOp h t p
    let rightPart ← match ro with
      | some rp => subtreeInorder h t fuel rp
      | none => pure []
    pure (leftPart ++ [p] ++ rightPart)

/-- `LinkedBinaryTree.inorder`: nothing on an empty tree, else the inorder
of the subtree rooted at `root()`.  (On the corrupt state `_size != 0` with
`_root is None` the Python generator raises a `TypeError` from
`_validate(None)`.)  Fuel `h.length + 1` covers any well-formed state. -/
def inorderOp [Inhabited α] (h : Heap α) (t : LBT) : Except PyErr (List Pos) :=
  if isEmptyT t then .ok []
  else
    match rootPos t with
    | some rp => subtreeInorder h t (h.length + 1) rp
    | none => .error (.typeErr "p must be of proper Position type")

/-- `LinkedBinaryTree.positions`: the override returning `self.inorder()`. -/
def positionsOp [Inhabited α] (h : Heap α) (t : LBT) : Except PyErr (List Pos) :=
  inorderOp h t

/-- Modelled from the spec: `BinaryTree.children` lives in
`trees/binary_tree.py`, which is not under `src/`.  Per the spec, the
children of a binary-tree position are iterated left-to-right: the left
child if present, then the right child if present (each produced through
the validating `left`/`right` accessors). -/
def childrenOp [Inhabited α] (h : Heap α) (t : LBT) (p : Pos) :
    Except PyErr (List Pos) := do
  let lo ← leftOp h t p
  let ro ← rightOp h t p
  pure (lo.toList ++ ro.toList)

/-- Modelled from the spec: the traversal fringe is a
`linked_list.linked_queue.LinkedQueue`, absent from `src/`; the spec pins
it down as a FIFO interface (`enqueue`, `dequeue` failing on empty,
`is_empty`), which a list used at opposite ends realises.  This is the
`while not fringe.is_empty()` loop of `Tree.breadthfirst`: dequeue a
position, yield it, enqueue its children left-to-right. -/
def bfsLoop [Inhabited α] (h : Heap α) (t : LBT) :
    Nat → List Pos → Except PyErr (List Pos)
  | 0, _ => .error .recursionErr
  | _ + 1, [] => .ok []
  | fuel + 1, p :: rest => do
    let cs ← childrenOp h t p
    let tail ← bfsLoop h t fuel (rest ++ cs)
    pure (p :: tail)

/-- `Tree.breadthfirst`: nothing on an empty tree, else the FIFO loop
seeded with the root.  Fuel `h.length + 1` covers any well-formed state. -/
def breadthfirstOp [Inhabited α] (h : Heap α) (t : LBT) :
    Except PyErr (List Pos) :=
  if isEmptyT t then .ok []
  else
    match rootPos t with
    | some rp => bfsLoop h t (h.length + 1) [rp]
    | none => .error (.typeErr "p must be of proper Position type")

/-!
## The `ArrayQueue` collaborator (`src/queue/queue.py`)

Slots of the circular array hold `Option α` (`None` marks a free slot).
-/

/-- `ArrayQueue` state: `_data`, `_size`, `_front`. -/
structure ArrayQueue (α : Type) : Type where
  data : List (Option α)
  size : Nat
  front : Nat
deriving Repr, DecidableEq

/-- `ArrayQueue.__init__`: ten empty slots. -/
def AQinit (α : Type) : ArrayQueue α :=
  ⟨List.replicate 10 none, 0, 0⟩

/-- `ArrayQueue.is_empty`. -/
def AQisEmpty (q : ArrayQueue α) : Bool :=
  q.size = 0

/-- `ArrayQueue.first`: raise `Empty` on an empty queue, else return
`self._data[self._front]` without writing anything, so the state handed
back is the input state. -/
def AQfirst (q : ArrayQueue α) : (Except PyErr (Option α)) × ArrayQueue α :=
  if q.size = 0 then (.error (.emptyErr "Queue is empty"), q)
  else (.ok (q.data.getD q.front none), q)

/-- `ArrayQueue._resize`: fresh list of `cap` slots, the `_size` stored
elements walked from `_front` (wrapping) into indices `0..`, `_front`
realigned to `0`. -/
def AQresize (q : ArrayQueue α) (cap : Nat) : ArrayQueue α :=
  { data := (List.range cap).map (fun k =>
      if k < q.size then q.data.getD ((q.front + k) % q.data.length) none
      else none),
    size := q.size,
    front := 0 }

/-- `ArrayQueue.dequeue`: raise `Empty` on an empty queue, else take the
front slot, clear it, advance `_front` modulo the capacity, decrement
`_size`, and shrink to half capacity when `0 < _size < capacity // 4`. -/
def AQdequeue (q : ArrayQueue α) : (Except PyErr (Option α)) × ArrayQueue α :=
  if q.size = 0 then (.error (.emptyErr "Queue is empty"), q)
  else
    let answer := q.data.getD q.front none
    let d1 := q.data.set q.front none
    let q1 : ArrayQueue α :=
      { data := d1, size := q.size - 1, front := (q.front + 1) % d1.length }
    let q2 := if 0 < q1.size ∧ q1.size < d1.length / 4 then
        AQresize q1 (d1.length / 2)
      else q1
    (.ok answer, q2)

/-- `ArrayQueue.enqueue`: double the capacity when full, then write the
element behind the last occupied slot and bump `_size`. -/
def AQenqueue (q : ArrayQueue α) (e : α) : ArrayQueue α :=
  let q0 := if q.size = q.data.length then AQresize q (2 * q.data.length) else q
  let avail := (q0.front + q0.size) % q0.data.length
  { q0 with data := q0.data.set avail (some e), size := q0.size + 1 }

/-!
## Well-formed states

The data-model invariants of the spec, over the embedding: `_size` counts
the non-deprecated arena nodes, links are symmetric, the root has no
parent, every live node's parent chain reaches the root, and no node sits
in both child slots of one parent.
-/

/-- A node object that exists and is not deprecated
(`node._parent is not node`). -/
def Live [Inhabited α] (h : Heap α) (i : Nat) : Prop :=
  i < h.length ∧ (nodeAt h i).parent ≠ some i

instance [Inhabited α] (h : Heap α) (i : Nat) : Decidable (Live h i) :=
  inferInstanceAs (Decidable (_ ∧ _))

/-- The indices of the live arena nodes. -/
def liveSet [Inhabited α] (h : Heap α) : Finset Nat :=
  (Finset.range h.length).filter (fun i => (nodeAt h i).parent ≠ some i)

/-- How many live nodes the arena holds. -/
def liveCount [Inhabited α] (h : Heap α) : Nat :=
  (liveSet h).card

/-- Iterate the parent reference `k` times (`none` once a node with no
parent is stepped past, i.e. the chain has left the tree). -/
def pIter [Inhabited α] (h : Heap α) : Nat → Nat → Option Nat
  | 0, i => some i
  | k + 1, i =>
    match (nodeAt h i).parent with
    | some q => pIter h k q
    | none => none

/-- The parent chain of `i` reaches the tree's root in at most
`h.length` steps. -/
def ReachesRoot [Inhabited α] (h : Heap α) (t : LBT) (i : Nat) : Prop :=
  match t.root with
  | none => False
  | some r => ∃ k ∈ List.range (h.length + 1), pIter h k i = some r

instance [Inhabited α] (h : Heap α) (t : LBT) (i : Nat) :
    Decidable (ReachesRoot h t i) := by
  unfold ReachesRoot
  cases t.root with
  | none => exact isFalse (fun f => f)
  | some r => exact List.decidableBEx _ _

/-- Symmetric link integrity for one child slot: a referenced child exists
and points back at `i`. -/
def childOK [Inhabited α] (h : Heap α) (i : Nat) : Option Nat → Prop
  | none => True
  | some c => c < h.length ∧ (nodeAt h c).parent = some i

instance [Inhabited α] (h : Heap α) (i : Nat) :
    (o : Option Nat) → Decidable (childOK h i o)
  | none => isTrue trivial
  | some _ => inferInstanceAs (Decidable (_ ∧ _))

/-- Symmetric link integrity upward: the parent exists and one of its
child slots holds `i`. -/
def parentBack [Inhabited α] (h : Heap α) (i : Nat) : Option Nat → Prop
  | none => True
  | some q => q < h.length ∧
      ((nodeAt h q).left = some i ∨ (nodeAt h q).right = some i)

instance [Inhabited α] (h : Heap α) (i : Nat) :
    (o : Option Nat) → Decidable (parentBack h i o)
  | none => isTrue trivial
  | some _ => inferInstanceAs (Decidable (_ ∧ _))

/-- The root reference, when present, names an existing node with no
parent. -/
def rootOK [Inhabited α] (h : Heap α) : Option Nat → Prop
  | none => True
  | some r => r < h.length ∧ (nodeAt h r).parent = none

instance [Inhabited α] (h : Heap α) : (o : Option Nat) → Decidable (rootOK h o)
  | none => isTrue trivial
  | some _ => inferInstanceAs (Decidable (_ ∧ _))

/-- No node occupies both child slots of one parent. -/
def slotsDistinct [Inhabited α] (h : Heap α) (i : Nat) : Prop :=
  (nodeAt h i).left = none ∨ (nodeAt h i).left ≠ (nodeAt h i).right

instance [Inhabited α] (h : Heap α) (i : Nat) : Decidable (slotsDistinct h i) :=
  inferInstanceAs (Decidable (_ ∨ _))

/-- Well-formed state of one tree over the arena: the spec's data-model
invariants. -/
def WF [Inhabited α] (h : Heap α) (t : LBT) : Prop :=
  t.size = (liveCount h : Int) ∧
  (t.root = none → liveCount h = 0) ∧
  rootOK h t.root ∧
  (∀ i, i < h.length → (nodeAt h i).parent ≠ some i →
    childOK h i (nodeAt h i).left ∧
    childOK h i (nodeAt h i).right ∧
    parentBack h i (nodeAt h i).parent ∧
    ReachesRoot h t i ∧
    slotsDistinct h i)

instance [Inhabited α] (h : Heap α) (t : LBT) : Decidable (WF h t) :=
  inferInstanceAs (Decidable (_ ∧ _))

/-- States of one tree reachable from a fresh `LinkedBinaryTree()` by the
public operations other than `attach`: `add_root`, `add_left`,
`add_right`, `replace`, `delete` — applied with arbitrary position
arguments, keeping whatever state an operation leaves behind whether it
returns or raises. -/
inductive Reach {α : Type} [Inhabited α] : Heap α → LBT → Prop
  | new (idn pt : Nat) : Reach [] ⟨idn, pt, none, 0⟩
  | stepAddRoot (e : α) {h : Heap α} {t : LBT} :
      Reach h t → Reach (addRoot h t e).2.1 (addRoot h t e).2.2
  | stepAddLeft (p : Pos) (e : α) {h : Heap α} {t : LBT} :
      Reach h t → Reach (addLeft h t p e).2.1 (addLeft h t p e).2.2
  | stepAddRight (p : Pos) (e : α) {h : Heap α} {t : LBT} :
      Reach h t → Reach (addRight h t p e).2.1 (addRight h t p e).2.2
  | stepReplace (p : Pos) (e : α) {h : Heap α} {t : LBT} :
      Reach h t → Reach (replaceOp h t p e).2 t
  | stepDelete (p : Pos) {h : Heap α} {t : LBT} :
      Reach h t → Reach (delete h t p).2.1 (delete h t p).2.2

/-- States reachable by the full public interface, `attach` included (here
the attach rule only records attaches of two freshly constructed empty
trees, which is all the refutation needs — every `ReachFull` state is
reachable in the sense of the claim). -/
inductive ReachFull {α : Type} [Inhabited α] : Heap α → LBT → Prop
  | new (idn pt : Nat) : ReachFull [] ⟨idn, pt, none, 0⟩
  | stepAddRoot (e : α) {h : Heap α} {t : LBT} :
      ReachFull h t → ReachFull (addRoot h t e).2.1 (addRoot h t e).2.2
  | stepAddLeft (p : Pos) (e : α) {h : Heap α} {t : LBT} :
      ReachFull h t → ReachFull (addLeft h t p e).2.1 (addLeft h t p e).2.2
  | stepAddRight (p : Pos) (e : α) {h : Heap α} {t : LBT} :
      ReachFull h t → ReachFull (addRight h t p e).2.1 (addRight h t p e).2.2
  | stepReplace (p : Pos) (e : α) {h : Heap α} {t : LBT} :
      ReachFull h t → ReachFull (replaceOp h t p e).2 t
  | stepDelete (p : Pos) {h : Heap α} {t : LBT} :
      ReachFull h t → ReachFull (delete h t p).2.1 (delete h t p).2.2
  | stepAttachEmpty (p : Pos) (id1 id2 : Nat) {h : Heap α} {t : LBT} :
      ReachFull h t →
      ReachFull (attachOp h t p ⟨id1, t.pytype, none, 0⟩ ⟨id2, t.pytype, none, 0⟩).2.1
        (attachOp h t p ⟨id1, t.pytype, none, 0⟩ ⟨id2, t.pytype, none, 0⟩).2.2.1

/-!
## Basic lemmas about the arena
-/

section HeapLemmas

lemma length_setNode (h : Heap α) (i : Nat) (n : PyNode α) :
    (setNode h i n).length = h.length :=
  List.length_set h i n

lemma nodeAt_lt [Inhabited α] {h : Heap α} {i : Nat} (hi : i < h.length) :
    nodeAt h i = h.get ⟨i, hi⟩ := by
  simp [nodeAt, List.getD_eq_getElem?_getD, List.getElem?_eq_getElem hi,
    List.get_eq_getElem]

lemma nodeAt_ge [Inhabited α] {h : Heap α} {i : Nat} (hi : h.length ≤ i) :
    nodeAt h i = default := by
  simp [nodeAt, List.getD_eq_getElem?_getD, List.getElem?_eq_none hi]

lemma getElem?_eq_some_nodeAt [Inhabited α] {h : Heap α} {i : Nat}
    (hi : i < h.length) : h[i]? = some (nodeAt h i) := by
  simp [List.getElem?_eq_getElem hi, nodeAt_lt hi, List.get_eq_getElem]

lemma nodeAt_set_self [Inhabited α] {h : Heap α} {i : Nat} (n : PyNode α)
    (hi : i < h.length) : nodeAt (setNode h i n) i = n := by
  simp [nodeAt, setNode, List.getD_eq_getElem?_getD, List.getElem?_set_self hi]

lemma nodeAt_set_ne [Inhabited α] {h : Heap α} {i x : Nat} (n : PyNode α)
    (hx : x ≠ i) : nodeAt (setNode h i n) x = nodeAt h x := by
  simp [nodeAt, setNode, List.getD_eq_getElem?_getD,
    List.getElem?_set_ne (Ne.symm hx)]

lemma nodeAt_append_lt [Inhabited α] {h l : Heap α} {x : Nat}
    (hx : x < h.length) : nodeAt (h ++ l) x = nodeAt h x := by
  simp [nodeAt, List.getD_eq_getElem?_getD, List.getElem?_append_left hx]

lemma nodeAt_append_self [Inhabited α] {h : Heap α} (n : PyNode α) :
    nodeAt (h ++ [n]) h.length = n := by
  have hx : (h ++ [n])[h.length]? = some n := by
    rw [List.getElem?_append_right (le_refl _)]
    simp
  simp [nodeAt, List.getD_eq_getElem?_getD, hx]

end HeapLemmas

/-!
## Lemmas about `_validate`
-/

section ValidateLemmas

lemma validate_of_live [Inhabited α] {h : Heap α} {t : LBT} {p : Pos}
    (hc : p.container = t.id) (hn : p.node < h.length)
    (hl : (nodeAt h p.node).parent ≠ some p.node) :
    validate h t p = .ok p.node := by
  simp [validate, hc, List.get?_eq_getElem?, getElem?_eq_some_nodeAt hn, hl]

lemma validate_container_ne [Inhabited α] {h : Heap α} {t : LBT} {p : Pos}
    (hc : p.container ≠ t.id) :
    validate h t p = .error (.valueErr "p does not belong to this container") := by
  simp [validate, hc]

lemma validate_deprecated [Inhabited α] {h : Heap α} {t : LBT} {p : Pos}
    (hc : p.container = t.id) (hn : p.node < h.length)
    (hd : (nodeAt h p.node).parent = some p.node) :
    validate h t p = .error (.valueErr "p is no longer valid") := by
  simp [validate, hc, List.get?_eq_getElem?, getElem?_eq_some_nodeAt hn, hd]

lemma validate_out_of_range [Inhabited α] {h : Heap α} {t : LBT} {p : Pos}
    (hc : p.container = t.id) (hn : h.length ≤ p.node) :
    validate h t p = .error (.typeErr "p must be of proper Position type") := by
  simp [validate, hc, List.get?_eq_getElem?, List.getElem?_eq_none hn]

lemma validate_ok_iff [Inhabited α] {h : Heap α} {t : LBT} {p : Pos} {i : Nat} :
    validate h t p = .ok i ↔
      p.container = t.id ∧ i = p.node ∧ p.node < h.length ∧
        (nodeAt h p.node).parent ≠ some p.node := by
  constructor
  · intro hv
    by_cases hc : p.container = t.id
    · by_cases hn : p.node < h.length
      · by_cases hd : (nodeAt h p.node).parent = some p.node
        · rw [validate_deprecated hc hn hd] at hv
          exact absurd hv (by simp)
        · rw [validate_of_live hc hn hd] at hv
          have hi : p.node = i := by
            have := hv
            simp only [Except.ok.injEq] at this
            exact this
          exact ⟨hc, hi.symm, hn, hd⟩
      · rw [validate_out_of_range hc (le_of_not_lt hn)] at hv
        exact absurd hv (by simp)
    · rw [validate_container_ne hc] at hv
      exact absurd hv (by simp)
  · rintro ⟨hc, rfl, hn, hl⟩
    exact validate_of_live hc hn hl

end ValidateLemmas

/-!
## Lemmas about liveness counting and parent chains
-/

section LiveLemmas

lemma mem_liveSet [Inhabited α] {h : Heap α} {x : Nat} :
    x ∈ liveSet h ↔ x < h.length ∧ (nodeAt h x).parent ≠ some x := by
  simp [liveSet, Finset.mem_filter, Finset.mem_range]

lemma liveSet_set_of_iff [Inhabited α] {h : Heap α} {i : Nat} {n : PyNode α}
    (hc : (nodeAt h i).parent = some i ↔ n.parent = some i) :
    liveSet (setNode h i n) = liveSet h := by
  ext x
  by_cases hx : x = i
  · subst hx
    by_cases hi : x < h.length
    · simp [mem_liveSet, length_setNode, nodeAt_set_self n hi, hi, not_iff_not.mpr hc]
    · simp [mem_liveSet, length_setNode, hi]
  · simp [mem_liveSet, length_setNode, nodeAt_set_ne n hx]

lemma liveSet_set_deprecate [Inhabited α] {h : Heap α} {i : Nat} {n : PyNode α}
    (hi : i < h.length) (hn : n.parent = some i) :
    liveSet (setNode h i n) = (liveSet h).erase i := by
  ext x
  by_cases hx : x = i
  · subst hx
    simp [mem_liveSet, length_setNode, nodeAt_set_self n hi, hn, Finset.mem_erase]
  · simp [mem_liveSet, length_setNode, nodeAt_set_ne n hx, Finset.mem_erase, hx]

lemma liveSet_append [Inhabited α] {h : Heap α} {n : PyNode α}
    (hn : n.parent ≠ some h.length) :
    liveSet (h ++ [n]) = insert h.length (liveSet h) := by
  ext x
  by_cases hx : x = h.length
  · subst hx
    simp [mem_liveSet, List.length_append, nodeAt_append_self, hn]
  · rcases lt_or_ge x h.length with hlt | hge
    · simp [mem_liveSet, List.length_append, nodeAt_append_lt hlt, hx,
        Nat.lt_succ_iff, le_of_lt hlt, hlt]
    · have hge' : ¬x < h.length + 1 := by omega
      simp [mem_liveSet, List.length_append, hx, hge', not_lt.mpr hge]

lemma length_not_mem_liveSet [Inhabited α] {h : Heap α} :
    h.length ∉ liveSet h := by
  simp [mem_liveSet]

lemma liveCount_append [Inhabited α] {h : Heap α} {n : PyNode α}
    (hn : n.parent ≠ some h.length) :
    liveCount (h ++ [n]) = liveCount h + 1 := by
  rw [liveCount, liveCount, liveSet_append hn,
    Finset.card_insert_of_not_mem length_not_mem_liveSet]

lemma liveCount_set_of_iff [Inhabited α] {h : Heap α} {i : Nat} {n : PyNode α}
    (hc : (nodeAt h i).parent = some i ↔ n.parent = some i) :
    liveCount (setNode h i n) = liveCount h := by
  rw [liveCount, liveCount, liveSet_set_of_iff hc]

lemma liveCount_set_deprecate [Inhabited α] {h : Heap α} {i : Nat}
    {n : PyNode α} (hi : i < h.length)
    (hlive : (nodeAt h i).parent ≠ some i) (hn : n.parent = some i) :
    liveCount (setNode h i n) = liveCount h - 1 ∧ 1 ≤ liveCount h := by
  have hmem : i ∈ liveSet h := mem_liveSet.mpr ⟨hi, hlive⟩
  constructor
  · rw [liveCount, liveCount, liveSet_set_deprecate hi hn,
      Finset.card_erase_of_mem hmem]
  · exact Finset.card_pos.mpr ⟨i, hmem⟩

lemma liveCount_zero_iff [Inhabited α] {h : Heap α} :
    liveCount h = 0 ↔ ∀ x, x < h.length → (nodeAt h x).parent = some x := by
  rw [liveCount, Finset.card_eq_zero]
  constructor
  · intro he x hx
    by_contra hne
    have : x ∈ liveSet h := mem_liveSet.mpr ⟨hx, hne⟩
    rw [he] at this
    exact absurd this (Finset.not_mem_empty x)
  · intro hall
    ext x
    simp only [mem_liveSet, Finset.not_mem_empty, iff_false, not_and, ne_eq,
      not_not]
    exact fun hx => hall x hx

lemma pIter_congr [Inhabited α] {h h' : Heap α}
    (hp : ∀ x, (nodeAt h' x).parent = (nodeAt h x).parent) :
    ∀ (k i : Nat), pIter h' k i = pIter h k i := by
  intro k
  induction k with
  | zero => intro i; rfl
  | succ k ih =>
    intro i
    simp only [pIter, hp i]
    cases (nodeAt h i).parent with
    | none => rfl
    | some q => exact ih q

lemma pIter_stuck [Inhabited α] {h : Heap α} {x : Nat}
    (hx : (nodeAt h x).parent = some x) : ∀ k, pIter h k x = some x := by
  intro k
  induction k with
  | zero => rfl
  | succ k ih => simp only [pIter, hx]; exact ih

/-- A chain that reaches `r` from a deprecated node never left it. -/
lemma pIter_of_deprecated [Inhabited α] {h : Heap α} {x r k : Nat}
    (hx : (nodeAt h x).parent = some x) (hr : pIter h k x = some r) : r = x := by
  rw [pIter_stuck hx k] at hr
  exact (Option.some_inj.mp hr).symm

lemma pIter_append [Inhabited α] {h l : Heap α}
    (hcl : ∀ x, x < h.length → ∀ y, (nodeAt h x).parent = some y → y < h.length) :
    ∀ (k i : Nat), i < h.length → pIter (h ++ l) k i = pIter h k i := by
  intro k
  induction k with
  | zero => intro i _; rfl
  | succ k ih =>
    intro i hi
    simp only [pIter, nodeAt_append_lt hi]
    cases hq : (nodeAt h i).parent with
    | none => rfl
    | some q => exact ih q (hcl i hi q hq)

end LiveLemmas

/-!
## Consequences of well-formedness
-/

section WFLemmas

lemma wf_size [Inhabited α] {h : Heap α} {t : LBT} (hwf : WF h t) :
    t.size = (liveCount h : Int) := hwf.1

lemma wf_root_none [Inhabited α] {h : Heap α} {t : LBT} (hwf : WF h t) :
    t.root = none → liveCount h = 0 := hwf.2.1

lemma wf_rootOK [Inhabited α] {h : Heap α} {t : LBT} (hwf : WF h t) :
    rootOK h t.root := hwf.2.2.1

lemma wf_at [Inhabited α] {h : Heap α} {t : LBT} (hwf : WF h t) {x : Nat}
    (hx : x < h.length) (hlx : (nodeAt h x).parent ≠ some x) :
    childOK h x (nodeAt h x).left ∧ childOK h x (nodeAt h x).right ∧
      parentBack h x (nodeAt h x).parent ∧ ReachesRoot h t x ∧
      slotsDistinct h x :=
  hwf.2.2.2 x hx hlx

lemma wf_closedParents [Inhabited α] {h : Heap α} {t : LBT} (hwf : WF h t) :
    ∀ x, x < h.length → ∀ y, (nodeAt h x).parent = some y → y < h.length := by
  intro x hx y hy
  by_cases hlx : (nodeAt h x).parent = some x
  · rw [hlx] at hy
    exact (Option.some_inj.mp hy) ▸ hx
  · have hpb := (wf_at hwf hx hlx).2.2.1
    rw [hy] at hpb
    exact hpb.1

/-- Two nodes that are each other's parents cannot both occur in a
well-formed state. -/
lemma wf_no_two_cycle [Inhabited α] {h : Heap α} {t : LBT} (hwf : WF h t)
    {i q : Nat} (hi : i < h.length)
    (hq : (nodeAt h i).parent = some q) (hqi : (nodeAt h q).parent = some i)
    (hqne : q ≠ i) : False := by
  have hlive : (nodeAt h i).parent ≠ some i := by
    rw [hq]; exact fun hc => hqne (Option.some_inj.mp hc)
  have hpair : ∀ k, (pIter h k i = some i ∨ pIter h k i = some q) ∧
      (pIter h k q = some i ∨ pIter h k q = some q) := by
    intro k
    induction k with
    | zero => exact ⟨Or.inl rfl, Or.inr rfl⟩
    | succ k ih =>
      constructor
      · simp only [pIter, hq]
        exact ih.2
      · simp only [pIter, hqi]
        exact ih.1
  have hrr := (wf_at hwf hi hlive).2.2.2.1
  unfold ReachesRoot at hrr
  rcases hr : t.root with _ | r
  · rw [hr] at hrr; exact hrr
  · rw [hr] at hrr
    obtain ⟨k, _, hk⟩ := hrr
    have hro := wf_rootOK hwf
    rw [hr] at hro
    rcases (hpair k).1 with hcase | hcase
    · rw [hk] at hcase
      have : r = i := Option.some_inj.mp hcase
      rw [this] at hro
      rw [hro.2] at hq
      exact absurd hq (by simp)
    · rw [hk] at hcase
      have : r = q := Option.some_inj.mp hcase
      rw [this] at hro
      rw [hro.2] at hqi
      exact absurd hqi (by simp)

/-- A live node that is not the root has a parent. -/
lemma wf_nonroot_parent [Inhabited α] {h : Heap α} {t : LBT} (hwf : WF h t)
    {i : Nat} (hi : i < h.length) (hlive : (nodeAt h i).parent ≠ some i)
    (hnr : t.root ≠ some i) : ∃ q, (nodeAt h i).parent = some q := by
  rcases hp : (nodeAt h i).parent with _ | q
  · exfalso
    have hrr := (wf_at hwf hi hlive).2.2.2.1
    unfold ReachesRoot at hrr
    rcases hr : t.root with _ | r
    · rw [hr] at hrr; exact hrr
    · rw [hr] at hrr
      obtain ⟨k, _, hk⟩ := hrr
      cases k with
      | zero =>
        have : i = r := Option.some_inj.mp hk
        exact hnr (this ▸ hr)
      | succ k =>
        simp only [pIter, hp] at hk
        exact absurd hk (by simp)
  · exact ⟨q, rfl⟩

end WFLemmas

/-!
## Analysis of `delete`
-/

/-- The `child` local of `LinkedBinaryTree.delete`:
`node._left if node._left else node._right`. -/
def childOf [Inhabited α] (h : Heap α) (i : Nat) : Option Nat :=
  if (nodeAt h i).left ≠ none then (nodeAt h i).left else (nodeAt h i).right

section DeleteLemmas

lemma numChildren_eq [Inhabited α] {h : Heap α} {t : LBT} {p : Pos} {i : Nat}
    (hv : validate h t p = .ok i) :
    numChildren h t p = .ok
      ((if (nodeAt h i).left ≠ none then 1 else 0) +
       (if (nodeAt h i).right ≠ none then 1 else 0)) := by
  simp [numChildren, hv, Except.map]

lemma numChildren_two_iff [Inhabited α] {h : Heap α} {t : LBT} {p : Pos}
    {i : Nat} (hv : validate h t p = .ok i) :
    numChildren h t p = .ok 2 ↔
      (nodeAt h i).left ≠ none ∧ (nodeAt h i).right ≠ none := by
  rw [numChildren_eq hv]
  by_cases hl : (nodeAt h i).left ≠ none <;>
    by_cases hr : (nodeAt h i).right ≠ none <;> simp [hl, hr]

/-- With at most one child, any node whose parent is `i` is the `child`
local of `delete`. -/
lemma wf_unique_child [Inhabited α] {h : Heap α} {t : LBT} (hwf : WF h t)
    {i : Nat}
    (hcnt : ¬((nodeAt h i).left ≠ none ∧ (nodeAt h i).right ≠ none)) :
    ∀ x, x < h.length → (nodeAt h x).parent = some i → x ≠ i →
      childOf h i = some x := by
  intro x hx hpx hxi
  have hxlive : (nodeAt h x).parent ≠ some x := by
    rw [hpx]; exact fun hcc => hxi (Option.some_inj.mp hcc).symm
  have hpb := (wf_at hwf hx hxlive).2.2.1
  rw [hpx] at hpb
  rcases hpb.2 with hsl | hsr
  · unfold childOf
    rw [hsl]
    simp
  · unfold childOf
    by_cases hl : (nodeAt h i).left ≠ none
    · exact absurd ⟨hl, by rw [hsr]; simp⟩ hcnt
    · simp only [hl, if_false, ite_false]
      exact hsr

/-- The `child` local points to an existing node whose parent is `i`. -/
lemma childOf_sound [Inhabited α] {h : Heap α} {t : LBT} (hwf : WF h t)
    {i c : Nat} (hi : i < h.length) (hlive : (nodeAt h i).parent ≠ some i)
    (hc : childOf h i = some c) :
    c < h.length ∧ (nodeAt h c).parent = some i ∧ c ≠ i := by
  have hslot : (nodeAt h i).left = some c ∨ (nodeAt h i).right = some c := by
    unfold childOf at hc
    by_cases hl : (nodeAt h i).left ≠ none
    · rw [if_pos hl] at hc; exact Or.inl hc
    · rw [if_neg hl] at hc; exact Or.inr hc
  have hco := (wf_at hwf hi hlive).1
  have hco' := (wf_at hwf hi hlive).2.1
  have hfacts : c < h.length ∧ (nodeAt h c).parent = some i := by
    rcases hslot with hs | hs
    · have := hco; rw [hs] at this; exact this
    · have := hco'; rw [hs] at this; exact this
  refine ⟨hfacts.1, hfacts.2, ?_⟩
  intro hci
  rw [hci] at hfacts
  exact hlive hfacts.2

/-- `childOf h i = none` exactly when both slots are empty. -/
lemma childOf_none_iff [Inhabited α] {h : Heap α} {i : Nat} :
    childOf h i = none ↔
      (nodeAt h i).left = none ∧ (nodeAt h i).right = none := by
  unfold childOf
  by_cases hl : (nodeAt h i).left ≠ none
  · simp [hl]
  · simp [hl, not_not.mp hl]

/-- Rerouting lemma, root case: after deleting the root `i` whose unique
child is `c`, every chain that reached `i` reaches `c` at most as slowly. -/
lemma chain_reroute_root [Inhabited α] {h h' : Heap α} {i c : Nat}
    (hcl : ∀ x, x < h.length → ∀ y, (nodeAt h x).parent = some y → y < h.length)
    (huniq : ∀ x, x < h.length → (nodeAt h x).parent = some i → x ≠ i → x = c)
    (hother : ∀ x, x ≠ i → x ≠ c → (nodeAt h' x).parent = (nodeAt h x).parent) :
    ∀ (k j : Nat), j < h.length → j ≠ i → pIter h k j = some i →
      ∃ k', k' ≤ k ∧ pIter h' k' j = some c := by
  intro k
  induction k with
  | zero =>
    intro j _ hji hpj
    exact absurd (Option.some_inj.mp hpj) hji
  | succ k ih =>
    intro j hj hji hpj
    by_cases hjc : j = c
    · exact ⟨0, Nat.zero_le _, by rw [hjc]; rfl⟩
    · rcases hx : (nodeAt h j).parent with _ | x
      · simp only [pIter, hx] at hpj
        exact absurd hpj (by simp)
      · simp only [pIter, hx] at hpj
        by_cases hxi : x = i
        · exact absurd (huniq j hj (hxi ▸ hx) hji) hjc
        · have hxlen : x < h.length := hcl j hj x hx
          obtain ⟨k', hk', hit⟩ := ih x hxlen hxi hpj
          refine ⟨k' + 1, Nat.succ_le_succ hk', ?_⟩
          simp only [pIter, hother j hji hjc, hx]
          exact hit

/-- Rerouting lemma, non-root case: after deleting `i` (unique child `c`,
parent chain continuing above `i`), every chain to the root `rt ≠ i`
survives, at most as slowly. -/
lemma chain_reroute_nonroot [Inhabited α] {h h' : Heap α} {i c rt : Nat}
    (hcl : ∀ x, x < h.length → ∀ y, (nodeAt h x).parent = some y → y < h.length)
    (huniq : ∀ x, x < h.length → (nodeAt h x).parent = some i → x ≠ i → x = c)
    (hother : ∀ x, x ≠ i → x ≠ c → (nodeAt h' x).parent = (nodeAt h x).parent)
    (hcpre : (nodeAt h c).parent = some i)
    (hcpost : (nodeAt h' c).parent = (nodeAt h i).parent)
    (hrt : rt ≠ i) :
    ∀ (k j : Nat), j < h.length → j ≠ i → pIter h k j = some rt →
      ∃ k', k' ≤ k ∧ pIter h' k' j = some rt := by
  intro k
  induction k using Nat.strong_induction_on with
  | _ k ih =>
  rcases k with _ | k0
  · intro j _ _ hpj
    exact ⟨0, le_refl 0, hpj⟩
  · intro j hj hji hpj
    by_cases hjc : j = c
    · subst hjc
      simp only [pIter, hcpre] at hpj
      rcases k0 with _ | m
      · exact absurd (Option.some_inj.mp hpj) (fun he => hrt he.symm)
      · rcases hq : (nodeAt h i).parent with _ | q
        · simp only [pIter, hq] at hpj
          exact absurd hpj (by simp)
        · simp only [pIter, hq] at hpj
          by_cases hqi : q = i
          · subst hqi
            exact absurd (pIter_of_deprecated hq hpj) hrt
          · have hqlen : q < h.length := hcl i (hcl j hj i hcpre) q hq
            obtain ⟨k', hk', hit⟩ := ih m (by omega) q hqlen hqi hpj
            refine ⟨k' + 1, by omega, ?_⟩
            simp only [pIter, hcpost, hq]
            exact hit
    · rcases hx : (nodeAt h j).parent with _ | x
      · simp only [pIter, hx] at hpj
        exact absurd hpj (by simp)
      · simp only [pIter, hx] at hpj
        by_cases hxi : x = i
        · exact absurd (huniq j hj (hxi ▸ hx) hji) hjc
        · have hxlen : x < h.length := hcl j hj x hx
          obtain ⟨k', hk', hit⟩ := ih k0 (by omega) x hxlen hxi hpj
          refine ⟨k' + 1, Nat.succ_le_succ hk', ?_⟩
          simp only [pIter, hother j hji hjc, hx]
          exact hit

/-- Chain preservation when the deleted node has no child: no chain ever
entered `i`, so chains to the root `rt ≠ i` are untouched. -/
lemma chain_keep_nochild [Inhabited α] {h h' : Heap α} {i rt : Nat}
    (hcl : ∀ x, x < h.length → ∀ y, (nodeAt h x).parent = some y → y < h.length)
    (hnoc : ∀ x, x < h.length → (nodeAt h x).parent = some i → x ≠ i → False)
    (hother : ∀ x, x ≠ i → (nodeAt h' x).parent = (nodeAt h x).parent) :
    ∀ (k j : Nat), j < h.length → j ≠ i → pIter h k j = some rt →
      pIter h' k j = some rt := by
  intro k
  induction k with
  | zero => intro j _ _ hpj; exact hpj
  | succ k ih =>
    intro j hj hji hpj
    rcases hx : (nodeAt h j).parent with _ | x
    · simp only [pIter, hx] at hpj
      exact absurd hpj (by simp)
    · simp only [pIter, hx] at hpj
      by_cases hxi : x = i
      · exact (hnoc j hj (hxi ▸ hx) hji).elim
      · have hxlen : x < h.length := hcl j hj x hx
        simp only [pIter, hother j hji, hx]
        exact ih x hxlen hxi hpj

/-- If the root has no children, it is the only live node. -/
lemma only_root_live [Inhabited α] {h : Heap α} {t : LBT} (hwf : WF h t)
    {i : Nat} (hroot : t.root = some i)
    (hl : (nodeAt h i).left = none) (hr : (nodeAt h i).right = none) :
    liveSet h = {i} := by
  have hro := wf_rootOK hwf
  rw [hroot] at hro
  have hchainless : ∀ (k x : Nat), x < h.length →
      (nodeAt h x).parent ≠ some x → pIter h k x = some i → x = i := by
    intro k
    induction k with
    | zero => intro x _ _ hpx; exact Option.some_inj.mp hpx
    | succ k ih =>
      intro x hx hlx hpx
      rcases hy : (nodeAt h x).parent with _ | y
      · simp only [pIter, hy] at hpx
        exact absurd hpx (by simp)
      · simp only [pIter, hy] at hpx
        by_cases hyi : y = i
        · exfalso
          have hpb := (wf_at hwf hx hlx).2.2.1
          rw [hy, hyi] at hpb
          rcases hpb.2 with hs | hs
          · rw [hl] at hs; exact absurd hs (by simp)
          · rw [hr] at hs; exact absurd hs (by simp)
        · by_cases hylive : (nodeAt h y).parent = some y
          · exact absurd (pIter_of_deprecated hylive hpx).symm hyi
          · have hylen : y < h.length := wf_closedParents hwf x hx y hy
            have : y = i := ih y hylen hylive hpx
            exact absurd this hyi
  ext x
  simp only [mem_liveSet, Finset.mem_singleton]
  constructor
  · rintro ⟨hx, hlx⟩
    have hrr := (wf_at hwf hx hlx).2.2.2.1
    unfold ReachesRoot at hrr
    rw [hroot] at hrr
    obtain ⟨k, _, hk⟩ := hrr
    exact hchainless k x hx hlx hk
  · rintro rfl
    refine ⟨hro.1, ?_⟩
    rw [hro.2]
    simp

/-- Full characterization of the successful `delete` paths: which heap and
tree come out, already simplified using the distinctness facts that hold on
a well-formed state. -/
lemma delete_ok_cases [Inhabited α] {h : Heap α} {t : LBT} {p : Pos}
    {i cnt : Nat} (hwf : WF h t) (hv : validate h t p = .ok i)
    (hcnt : numChildren h t p = .ok cnt) (h2 : cnt ≠ 2) :
    (t.root = some i ∧ childOf h i = none ∧
       delete h t p = (.ok (nodeAt h i).element,
         setNode h i { nodeAt h i with parent := some i },
         { t with root := none, size := t.size - 1 })) ∨
    (∃ c, t.root = some i ∧ childOf h i = some c ∧ c ≠ i ∧ c < h.length ∧
       (nodeAt h c).parent = some i ∧ (nodeAt h i).parent = none ∧
       delete h t p = (.ok (nodeAt h i).element,
         setNode (setNode h c { nodeAt h c with parent := none }) i
           { nodeAt h i with parent := some i },
         { t with root := some c, size := t.size - 1 })) ∨
    (∃ q, ¬t.root = some i ∧ childOf h i = none ∧
       (nodeAt h i).parent = some q ∧ q < h.length ∧ q ≠ i ∧
       ((nodeAt h q).left = some i ∨ (nodeAt h q).right = some i) ∧
       delete h t p = (.ok (nodeAt h i).element,
         setNode (setNode h q (if (nodeAt h q).left = some i
             then { nodeAt h q with left := none }
             else { nodeAt h q with right := none })) i
           { nodeAt h i with parent := some i },
         { t with size := t.size - 1 })) ∨
    (∃ c q, ¬t.root = some i ∧ childOf h i = some c ∧ c ≠ i ∧ c < h.length ∧
       (nodeAt h c).parent = some i ∧
       (nodeAt h i).parent = some q ∧ q < h.length ∧ q ≠ i ∧ q ≠ c ∧
       ((nodeAt h q).left = some i ∨ (nodeAt h q).right = some i) ∧
       delete h t p = (.ok (nodeAt h i).element,
         setNode (setNode (setNode h c { nodeAt h c with parent := some q }) q
             (if (nodeAt h q).left = some i
              then { nodeAt h q with left := some c }
              else { nodeAt h q with right := some c })) i
           { nodeAt h i with parent := some i },
         { t with size := t.size - 1 })) := by
  obtain ⟨hc, hip, hilen, hlivp⟩ := validate_ok_iff.mp hv
  subst hip
  set i := p.node with hidef
  have hno2 : ¬((nodeAt h i).left ≠ none ∧ (nodeAt h i).right ≠ none) := by
    intro hb
    exact h2 (Except.ok.inj ((hcnt.symm.trans ((numChildren_two_iff hv).mpr hb))))
  have hstep : delete h t p =
      (let child := childOf h i
       let h1 := match child with
         | some c => setNode h c { nodeAt h c with parent := (nodeAt h i).parent }
         | none => h
       if t.root = some i then
         let t1 : LBT := { t with root := child, size := t.size - 1 }
         let hh2 := setNode h1 i { nodeAt h1 i with parent := some i }
         (.ok (nodeAt hh2 i).element, hh2, t1)
       else
         match (nodeAt h1 i).parent with
         | none => (.error (.attrErr "NoneType object has no attribute"), h1, t)
         | some q =>
           let hh2 :=
             if (nodeAt h1 q).left = some i then
               setNode h1 q { nodeAt h1 q with left := child }
             else
               setNode h1 q { nodeAt h1 q with right := child }
           let t1 : LBT := { t with size := t.size - 1 }
           let h3 := setNode hh2 i { nodeAt hh2 i with parent := some i }
           (.ok (nodeAt h3 i).element, h3, t1)) := by
    unfold delete
    rw [hv, hcnt]
    simp only [if_neg h2]
    rfl
  by_cases hroot : t.root = some i
  · rcases hchild : childOf h i with _ | c
    · -- root, no child
      left
      refine ⟨hroot, rfl, ?_⟩
      rw [hstep]
      simp only [hchild, hroot, if_pos]
      rw [nodeAt_set_self _ hilen]
    · -- root, one child
      right; left
      obtain ⟨hclen, hcpar, hcne⟩ := childOf_sound hwf hilen hlivp hchild
      have hro := wf_rootOK hwf
      rw [hroot] at hro
      have hpnone : (nodeAt h i).parent = none := hro.2
      refine ⟨c, hroot, rfl, hcne, hclen, hcpar, hpnone, ?_⟩
      rw [hstep]
      simp only [hchild, hroot, if_pos, hpnone]
      have hni : nodeAt (setNode h c { nodeAt h c with parent := none }) i
          = nodeAt h i := nodeAt_set_ne _ (fun he => hcne he.symm)
      rw [hni, nodeAt_set_self _ (by rw [length_setNode]; exact hilen)]
  · obtain ⟨q, hq⟩ := wf_nonroot_parent hwf hilen hlivp hroot
    have hqne : q ≠ i := by
      intro he
      rw [he] at hq
      exact hlivp hq
    have hpb := (wf_at hwf hilen hlivp).2.2.1
    rw [hq] at hpb
    obtain ⟨hqlen, hqslot⟩ := hpb
    rcases hchild : childOf h i with _ | c
    · -- non-root, no child
      right; right; left
      refine ⟨q, hroot, rfl, hq, hqlen, hqne, hqslot, ?_⟩
      rw [hstep]
      simp only [hchild, if_neg hroot, hq]
      by_cases hql : (nodeAt h q).left = some i
      · simp only [if_pos hql]
        rw [nodeAt_set_self _ (by rw [length_setNode]; exact hilen)]
        rw [nodeAt_set_ne _ (Ne.symm hqne)]
      · simp only [if_neg hql]
        rw [nodeAt_set_self _ (by rw [length_setNode]; exact hilen)]
        rw [nodeAt_set_ne _ (Ne.symm hqne)]
    · -- non-root, one child
      right; right; right
      obtain ⟨hclen, hcpar, hcne⟩ := childOf_sound hwf hilen hlivp hchild
      have hqc : q ≠ c := by
        intro he
        rw [he] at hq
        exact wf_no_two_cycle hwf hilen hq hcpar hcne
      refine ⟨c, q, hroot, rfl, hcne, hclen, hcpar, hq, hqlen, hqne, hqc,
        hqslot, ?_⟩
      rw [hstep]
      simp only [hchild, if_neg hroot, hq]
      have e2 : nodeAt (setNode h c { nodeAt h c with parent := some q }) i
          = nodeAt h i := nodeAt_set_ne _ (Ne.symm hcne)
      have e3 : nodeAt (setNode h c { nodeAt h c with parent := some q }) q
          = nodeAt h q := nodeAt_set_ne _ hqc
      simp only [e2, e3, hq]
      by_cases hql : (nodeAt h q).left = some i
      · simp only [if_pos hql]
        rw [nodeAt_set_self _ (by rw [length_setNode, length_setNode]; exact hilen)]
        rw [nodeAt_set_ne _ (Ne.symm hqne), e2]
      · simp only [if_neg hql]
        rw [nodeAt_set_self _ (by rw [length_setNode, length_setNode]; exact hilen)]
        rw [nodeAt_set_ne _ (Ne.symm hqne), e2]

/-- A live node's parent is itself live. -/
lemma wf_parent_live [Inhabited α] {h : Heap α} {t : LBT} (hwf : WF h t)
    {i q : Nat} (hi : i < h.length) (hilive : (nodeAt h i).parent ≠ some i)
    (hq : (nodeAt h i).parent = some q) :
    (nodeAt h q).parent ≠ some q := by
  intro hdep
  have hrr := (wf_at hwf hi hilive).2.2.2.1
  unfold ReachesRoot at hrr
  rcases hr : t.root with _ | rt
  · rw [hr] at hrr; exact hrr
  · rw [hr] at hrr
    obtain ⟨k, _, hk⟩ := hrr
    have hro := wf_rootOK hwf
    rw [hr] at hro
    cases k with
    | zero =>
      have : i = rt := Option.some_inj.mp hk
      rw [this] at hq
      rw [hro.2] at hq
      exact absurd hq (by simp)
    | succ k =>
      simp only [pIter, hq] at hk
      have : rt = q := pIter_of_deprecated hdep hk
      rw [this] at hro
      rw [hro.2] at hdep
      exact absurd hdep (by simp)

/-- A well-formed state with a live node has a root. -/
lemma wf_root_of_live [Inhabited α] {h : Heap α} {t : LBT} (hwf : WF h t)
    {i : Nat} (hi : i < h.length) (hilive : (nodeAt h i).parent ≠ some i) :
    ∃ rt, t.root = some rt := by
  rcases hr : t.root with _ | rt
  · exfalso
    have h0 := wf_root_none hwf hr
    have : i ∈ liveSet h := mem_liveSet.mpr ⟨hi, hilive⟩
    rw [liveCount, Finset.card_eq_zero] at h0
    rw [h0] at this
    exact absurd this (Finset.not_mem_empty i)
  · exact ⟨rt, rfl⟩

/-- WF is preserved by deleting a childless root. -/
lemma wf_delete_root_nochild [Inhabited α] {h : Heap α} {t : LBT}
    {i : Nat} (hwf : WF h t) (hi : i < h.length)
    (hilive : (nodeAt h i).parent ≠ some i) (hroot : t.root = some i)
    (hl : (nodeAt h i).left = none) (hr : (nodeAt h i).right = none) :
    WF (setNode h i { nodeAt h i with parent := some i })
      { t with root := none, size := t.size - 1 } := by
  have hls : liveSet h = {i} := only_root_live hwf hroot hl hr
  have hdep : liveSet (setNode h i { nodeAt h i with parent := some i })
      = (liveSet h).erase i := liveSet_set_deprecate hi rfl
  have hlc : liveCount h = 1 := by rw [liveCount, hls]; rfl
  have hlc' : liveCount (setNode h i { nodeAt h i with parent := some i }) = 0 := by
    rw [liveCount, hdep, hls]
    simp
  refine ⟨?_, fun _ => hlc', trivial, ?_⟩
  · have hs := wf_size hwf
    rw [hlc] at hs
    simp only [hlc']
    omega
  · intro x hx hxlive
    exfalso
    rw [length_setNode] at hx
    by_cases hxi : x = i
    · subst hxi
      rw [nodeAt_set_self _ hx] at hxlive
      exact hxlive rfl
    · rw [nodeAt_set_ne _ hxi] at hxlive
      have : x ∈ liveSet h := mem_liveSet.mpr ⟨hx, hxlive⟩
      rw [hls, Finset.mem_singleton] at this
      exact hxi this

/-- WF is preserved by deleting a root with a single child `c`: the child
is promoted to root. -/
lemma wf_delete_root_child [Inhabited α] {h : Heap α} {t : LBT}
    {i c : Nat} (hwf : WF h t) (hi : i < h.length)
    (hilive : (nodeAt h i).parent ≠ some i) (hroot : t.root = some i)
    (hno2 : ¬((nodeAt h i).left ≠ none ∧ (nodeAt h i).right ≠ none))
    (hchild : childOf h i = some c) (hcne : c ≠ i) (hclen : c < h.length)
    (hcpar : (nodeAt h c).parent = some i) :
    WF (setNode (setNode h c { nodeAt h c with parent := none }) i
        { nodeAt h i with parent := some i })
      { t with root := some c, size := t.size - 1 } := by
  set h1 := setNode h c { nodeAt h c with parent := none } with hh1
  set h' := setNode h1 i { nodeAt h i with parent := some i } with hh'
  have hlen1 : h1.length = h.length := length_setNode ..
  have hlen' : h'.length = h.length := by rw [hh', length_setNode, hlen1]
  -- node reads in h'
  have ei : nodeAt h' i = { nodeAt h i with parent := some i } :=
    nodeAt_set_self _ (by rw [hlen1]; exact hi)
  have ec : nodeAt h' c = { nodeAt h c with parent := none } := by
    rw [hh', nodeAt_set_ne _ hcne, hh1, nodeAt_set_self _ hclen]
  have eo : ∀ x, x ≠ i → x ≠ c → nodeAt h' x = nodeAt h x := by
    intro x hxi hxc
    rw [hh', nodeAt_set_ne _ hxi, hh1, nodeAt_set_ne _ hxc]
  have epar : ∀ x, x ≠ i → x ≠ c →
      (nodeAt h' x).parent = (nodeAt h x).parent := by
    intro x hxi hxc; rw [eo x hxi hxc]
  have eslots : ∀ x, (nodeAt h' x).left = (nodeAt h x).left ∧
      (nodeAt h' x).right = (nodeAt h x).right := by
    intro x
    by_cases hxi : x = i
    · subst hxi; rw [ei]; exact ⟨rfl, rfl⟩
    · by_cases hxc : x = c
      · subst hxc; rw [ec]; exact ⟨rfl, rfl⟩
      · rw [eo x hxi hxc]; exact ⟨rfl, rfl⟩
  -- liveness bookkeeping
  have hcur : (nodeAt h c).parent = some c ↔
      ({ nodeAt h c with parent := none } : PyNode α).parent = some c := by
    rw [hcpar]
    constructor
    · intro he
      exact absurd (Option.some_inj.mp he).symm hcne
    · intro he
      exact absurd he (by simp)
  have hlive1 : liveSet h1 = liveSet h := liveSet_set_of_iff hcur
  have hipar1 : (nodeAt h1 i).parent = (nodeAt h i).parent := by
    rw [hh1, nodeAt_set_ne _ (fun he => hcne he.symm)]
  have hlive' : liveSet h' = (liveSet h).erase i := by
    rw [hh', liveSet_set_deprecate (by rw [hlen1]; exact hi) rfl, hlive1]
  have himem : i ∈ liveSet h := mem_liveSet.mpr ⟨hi, hilive⟩
  have hlc' : liveCount h' = liveCount h - 1 := by
    rw [liveCount, hlive', Finset.card_erase_of_mem himem]; rfl
  have hone : 1 ≤ liveCount h := Finset.card_pos.mpr ⟨i, himem⟩
  -- root facts
  have hro := wf_rootOK hwf
  rw [hroot] at hro
  have hpnone : (nodeAt h i).parent = none := hro.2
  have hclive : (nodeAt h c).parent ≠ some c := by
    rw [hcpar]; exact fun he => hcne (Option.some_inj.mp he).symm
  have huniq : ∀ x, x < h.length → (nodeAt h x).parent = some i → x ≠ i →
      x = c := by
    intro x hx hpx hxi
    have := wf_unique_child hwf hno2 x hx hpx hxi
    rw [hchild] at this
    exact (Option.some_inj.mp this).symm
  refine ⟨?_, ?_, ?_, ?_⟩
  · have hs := wf_size hwf
    simp only [hlc']
    rw [hs]
    omega
  · intro hcon
    exact absurd hcon (by simp)
  · exact ⟨by rw [hlen']; exact hclen, by rw [ec]⟩
  · intro x hx hxlive
    rw [hlen'] at hx
    have hxi : x ≠ i := by
      intro he
      subst he
      rw [ei] at hxlive
      exact hxlive rfl
    have hxlivepre : (nodeAt h x).parent ≠ some x := by
      by_cases hxc : x = c
      · subst hxc; exact hclive
      · rw [← epar x hxi hxc]; exact hxlive
    have hwx := wf_at hwf hx hxlivepre
    have hchildok : ∀ o, childOK h x o → childOK h' x o := by
      intro o ho
      rcases o with _ | d
      · trivial
      · obtain ⟨hdlen, hdpar⟩ := ho
        have hdi : d ≠ i := by
          intro he; rw [he, hpnone] at hdpar; exact absurd hdpar (by simp)
        have hdc : d ≠ c := by
          intro he
          rw [he, hcpar] at hdpar
          exact hxi (Option.some_inj.mp hdpar).symm
        exact ⟨by rw [hlen']; exact hdlen, by rw [epar d hdi hdc]; exact hdpar⟩
    refine ⟨?_, ?_, ?_, ?_, ?_⟩
    · rw [(eslots x).1]; exact hchildok _ hwx.1
    · rw [(eslots x).2]; exact hchildok _ hwx.2.1
    · by_cases hxc : x = c
      · subst hxc
        rw [ec]
        trivial
      · rw [epar x hxi hxc]
        rcases hw : (nodeAt h x).parent with _ | w
        · trivial
        · have hpb := hwx.2.2.1
          rw [hw] at hpb
          refine ⟨by rw [hlen']; exact hpb.1, ?_⟩
          rw [(eslots w).1, (eslots w).2]
          exact hpb.2
    · unfold ReachesRoot
      by_cases hxc : x = c
      · subst hxc
        refine ⟨0, ?_, rfl⟩
        simp
      · have hrr := hwx.2.2.2.1
        unfold ReachesRoot at hrr
        rw [hroot] at hrr
        obtain ⟨k, hkmem, hk⟩ := hrr
        obtain ⟨k', hk', hit⟩ := chain_reroute_root (wf_closedParents hwf)
          huniq epar k x hx hxi hk
        refine ⟨k', ?_, hit⟩
        rw [List.mem_range] at hkmem ⊢
        rw [hlen']
        omega
    · unfold slotsDistinct
      rw [(eslots x).1, (eslots x).2]
      exact hwx.2.2.2.2

/-- WF is preserved by deleting a childless non-root node: the parent's
slot for it is emptied. -/
lemma wf_delete_nonroot_nochild [Inhabited α] {h : Heap α} {t : LBT}
    {i q : Nat} (hwf : WF h t) (hi : i < h.length)
    (hilive : (nodeAt h i).parent ≠ some i) (hroot : ¬t.root = some i)
    (hl : (nodeAt h i).left = none) (hr : (nodeAt h i).right = none)
    (hq : (nodeAt h i).parent = some q) (hqlen : q < h.length) (hqne : q ≠ i)
    (hqslot : (nodeAt h q).left = some i ∨ (nodeAt h q).right = some i) :
    WF (setNode (setNode h q (if (nodeAt h q).left = some i
          then { nodeAt h q with left := none }
          else { nodeAt h q with right := none })) i
        { nodeAt h i with parent := some i })
      { t with size := t.size - 1 } := by
  set B := (if (nodeAt h q).left = some i
    then { nodeAt h q with left := none }
    else { nodeAt h q with right := none }) with hB
  have hBpar : B.parent = (nodeAt h q).parent := by
    rw [hB]; split <;> rfl
  have hBcase : (B.left = none ∧ B.right = (nodeAt h q).right ∧
        (nodeAt h q).left = some i) ∨
      (B.right = none ∧ B.left = (nodeAt h q).left ∧
        (nodeAt h q).right = some i ∧ (nodeAt h q).left ≠ some i) := by
    rw [hB]
    by_cases hql : (nodeAt h q).left = some i
    · rw [if_pos hql]; exact Or.inl ⟨rfl, rfl, hql⟩
    · rw [if_neg hql]
      rcases hqslot with hs | hs
      · exact absurd hs hql
      · exact Or.inr ⟨rfl, rfl, hs, hql⟩
  obtain ⟨rt, hrt⟩ := wf_root_of_live hwf hi hilive
  have hrti : rt ≠ i := fun he => hroot (he ▸ hrt)
  set h1 := setNode h q B with hh1
  set h' := setNode h1 i { nodeAt h i with parent := some i } with hh'
  have hlen1 : h1.length = h.length := length_setNode ..
  have hlen' : h'.length = h.length := by rw [hh', length_setNode, hlen1]
  have eqq : nodeAt h' q = B := by
    rw [hh', nodeAt_set_ne _ hqne, hh1, nodeAt_set_self _ hqlen]
  have ei : nodeAt h' i = { nodeAt h i with parent := some i } := by
    rw [hh', nodeAt_set_self _ (by rw [hlen1]; exact hi)]
  have eo : ∀ x, x ≠ i → x ≠ q → nodeAt h' x = nodeAt h x := by
    intro x hxi hxq
    rw [hh', nodeAt_set_ne _ hxi, hh1, nodeAt_set_ne _ hxq]
  have epar : ∀ x, x ≠ i → (nodeAt h' x).parent = (nodeAt h x).parent := by
    intro x hxi
    by_cases hxq : x = q
    · subst hxq; rw [eqq, hBpar]
    · rw [eo x hxi hxq]
  -- liveness bookkeeping
  have hlive1 : liveSet h1 = liveSet h :=
    liveSet_set_of_iff (by rw [hBpar])
  have hlive' : liveSet h' = (liveSet h).erase i := by
    rw [hh', liveSet_set_deprecate (by rw [hlen1]; exact hi) rfl, hlive1]
  have himem : i ∈ liveSet h := mem_liveSet.mpr ⟨hi, hilive⟩
  have hlc' : liveCount h' = liveCount h - 1 := by
    rw [liveCount, hlive', Finset.card_erase_of_mem himem]; rfl
  have hone : 1 ≤ liveCount h := Finset.card_pos.mpr ⟨i, himem⟩
  have hnoc : ∀ x, x < h.length → (nodeAt h x).parent = some i → x ≠ i →
      False := by
    intro x hx hpx hxi
    have := wf_unique_child hwf (by rw [hl]; exact fun hb => hb.1 rfl) x hx hpx hxi
    rw [childOf_none_iff.mpr ⟨hl, hr⟩] at this
    exact absurd this (by simp)
  have hqlive : (nodeAt h q).parent ≠ some q := wf_parent_live hwf hi hilive hq
  refine ⟨?_, ?_, ?_, ?_⟩
  · have hs := wf_size hwf
    simp only [hlc']
    rw [hs]
    omega
  · intro hcon
    rw [hrt] at hcon
    exact absurd hcon (by simp)
  · rw [hrt]
    have hro := wf_rootOK hwf
    rw [hrt] at hro
    exact ⟨by rw [hlen']; exact hro.1, by rw [epar rt hrti]; exact hro.2⟩
  · intro x hx hxlive
    rw [hlen'] at hx
    have hxi : x ≠ i := by
      intro he
      subst he
      rw [ei] at hxlive
      exact hxlive rfl
    have hxlivepre : (nodeAt h x).parent ≠ some x := by
      rw [← epar x hxi]; exact hxlive
    have hwx := wf_at hwf hx hxlivepre
    have htrans : ∀ o, o ≠ some i → childOK h x o → childOK h' x o := by
      intro o hoi ho
      rcases o with _ | d
      · trivial
      · obtain ⟨hdlen, hdpar⟩ := ho
        have hdi : d ≠ i := fun he => hoi (by rw [he])
        exact ⟨by rw [hlen']; exact hdlen, by rw [epar d hdi]; exact hdpar⟩
    have hqsd := (wf_at hwf hqlen hqlive).2.2.2.2
    refine ⟨?_, ?_, ?_, ?_, ?_⟩
    · by_cases hxq : x = q
      · subst hxq
        rw [eqq]
        rcases hBcase with ⟨hbl, hbr, _⟩ | ⟨hbr, hbl, hs, hql⟩
        · rw [hbl]; trivial
        · rw [hbl]
          refine htrans _ ?_ hwx.1
          intro he
          exact hql (by rw [he])
      · rw [(show (nodeAt h' x).left = (nodeAt h x).left by rw [eo x hxi hxq])]
        refine htrans _ ?_ hwx.1
        intro he
        have hcok := hwx.1
        rw [he] at hcok
        obtain ⟨_, hpar⟩ := hcok
        rw [hq] at hpar
        exact hxq (Option.some_inj.mp hpar).symm
    · by_cases hxq : x = q
      · subst hxq
        rw [eqq]
        rcases hBcase with ⟨hbl, hbr, hql⟩ | ⟨hbr, hbl, hs, hql⟩
        · rw [hbr]
          refine htrans _ ?_ hwx.2.1
          intro he
          unfold slotsDistinct at hqsd
          rcases hqsd with hn | hne
          · rw [hn] at hql; exact absurd hql (by simp)
          · rw [hql, he] at hne; exact hne rfl
        · rw [hbr]; trivial
      · rw [(show (nodeAt h' x).right = (nodeAt h x).right by rw [eo x hxi hxq])]
        refine htrans _ ?_ hwx.2.1
        intro he
        have hcok := hwx.2.1
        rw [he] at hcok
        obtain ⟨_, hpar⟩ := hcok
        rw [hq] at hpar
        exact hxq (Option.some_inj.mp hpar).symm
    · rw [epar x hxi]
      rcases hw : (nodeAt h x).parent with _ | w
      · trivial
      · have hpb := hwx.2.2.1
        rw [hw] at hpb
        obtain ⟨hwlen, hws⟩ := hpb
        refine ⟨by rw [hlen']; exact hwlen, ?_⟩
        by_cases hwq : w = q
        · subst hwq
          rw [eqq]
          rcases hBcase with ⟨hbl, hbr, hql⟩ | ⟨hbr, hbl, hs, hql⟩
          · rcases hws with hws | hws
            · rw [hws] at hql
              exact absurd (Option.some_inj.mp hql) hxi
            · right; rw [hbr]; exact hws
          · rcases hws with hws | hws
            · left; rw [hbl]; exact hws
            · rw [hws] at hs
              exact absurd (Option.some_inj.mp hs) hxi
        · have hwi : w ≠ i := fun he => hnoc x hx (he ▸ hw) hxi
          rw [(show (nodeAt h' w).left = (nodeAt h w).left by
              rw [eo w hwi hwq]),
            (show (nodeAt h' w).right = (nodeAt h w).right by
              rw [eo w hwi hwq])]
          exact hws
    · unfold ReachesRoot
      rw [hrt]
      have hrr := hwx.2.2.2.1
      unfold ReachesRoot at hrr
      rw [hrt] at hrr
      obtain ⟨k, hkmem, hk⟩ := hrr
      refine ⟨k, by rw [List.mem_range] at hkmem ⊢; rw [hlen']; exact hkmem, ?_⟩
      exact chain_keep_nochild (wf_closedParents hwf) hnoc epar k x hx hxi hk
    · unfold slotsDistinct
      by_cases hxq : x = q
      · subst hxq
        rw [eqq]
        rcases hBcase with ⟨hbl, hbr, hql⟩ | ⟨hbr, hbl, hs, hql⟩
        · left; exact hbl
        · rcases hbl2 : B.left with _ | d
          · left; rfl
          · right
            rw [hbr]
            simp
      · rw [(show (nodeAt h' x).left = (nodeAt h x).left by rw [eo x hxi hxq]),
          (show (nodeAt h' x).right = (nodeAt h x).right by rw [eo x hxi hxq])]
        exact hwx.2.2.2.2

/-- WF is preserved by deleting a non-root node with a single child `c`:
the child is spliced into the former parent's slot. -/
lemma wf_delete_nonroot_child [Inhabited α] {h : Heap α} {t : LBT}
    {i c q : Nat} (hwf : WF h t) (hi : i < h.length)
    (hilive : (nodeAt h i).parent ≠ some i) (hroot : ¬t.root = some i)
    (hno2 : ¬((nodeAt h i).left ≠ none ∧ (nodeAt h i).right ≠ none))
    (hchild : childOf h i = some c) (hcne : c ≠ i) (hclen : c < h.length)
    (hcpar : (nodeAt h c).parent = some i)
    (hq : (nodeAt h i).parent = some q) (hqlen : q < h.length) (hqne : q ≠ i)
    (hqc : q ≠ c)
    (hqslot : (nodeAt h q).left = some i ∨ (nodeAt h q).right = some i) :
    WF (setNode (setNode (setNode h c { nodeAt h c with parent := some q }) q
          (if (nodeAt h q).left = some i
           then { nodeAt h q with left := some c }
           else { nodeAt h q with right := some c })) i
        { nodeAt h i with parent := some i })
      { t with size := t.size - 1 } := by
  set B := (if (nodeAt h q).left = some i
    then { nodeAt h q with left := some c }
    else { nodeAt h q with right := some c }) with hB
  have hBpar : B.parent = (nodeAt h q).parent := by
    rw [hB]; split <;> rfl
  have hBcase : (B.left = some c ∧ B.right = (nodeAt h q).right ∧
        (nodeAt h q).left = some i) ∨
      (B.right = some c ∧ B.left = (nodeAt h q).left ∧
        (nodeAt h q).right = some i ∧ (nodeAt h q).left ≠ some i) := by
    rw [hB]
    by_cases hql : (nodeAt h q).left = some i
    · rw [if_pos hql]; exact Or.inl ⟨rfl, rfl, hql⟩
    · rw [if_neg hql]
      rcases hqslot with hs | hs
      · exact absurd hs hql
      · exact Or.inr ⟨rfl, rfl, hs, hql⟩
  obtain ⟨rt, hrt⟩ := wf_root_of_live hwf hi hilive
  have hrti : rt ≠ i := fun he => hroot (he ▸ hrt)
  have hclive : (nodeAt h c).parent ≠ some c := by
    rw [hcpar]; exact fun he => hcne (Option.some_inj.mp he).symm
  have hqlive : (nodeAt h q).parent ≠ some q := wf_parent_live hwf hi hilive hq
  set h1 := setNode h c { nodeAt h c with parent := some q } with hh1
  set hm := setNode h1 q B with hhm
  set h' := setNode hm i { nodeAt h i with parent := some i } with hh'
  have hlen1 : h1.length = h.length := length_setNode ..
  have hlenm : hm.length = h.length := by rw [hhm, length_setNode, hlen1]
  have hlen' : h'.length = h.length := by rw [hh', length_setNode, hlenm]
  have ei : nodeAt h' i = { nodeAt h i with parent := some i } := by
    rw [hh', nodeAt_set_self _ (by rw [hlenm]; exact hi)]
  have eqq : nodeAt h' q = B := by
    rw [hh', nodeAt_set_ne _ hqne, hhm, nodeAt_set_self _ (by rw [hlen1]; exact hqlen)]
  have ec : nodeAt h' c = { nodeAt h c with parent := some q } := by
    rw [hh', nodeAt_set_ne _ hcne, hhm, nodeAt_set_ne _ (fun he => hqc he.symm),
      hh1, nodeAt_set_self _ hclen]
  have eo : ∀ x, x ≠ i → x ≠ q → x ≠ c → nodeAt h' x = nodeAt h x := by
    intro x hxi hxq hxc
    rw [hh', nodeAt_set_ne _ hxi, hhm, nodeAt_set_ne _ hxq, hh1,
      nodeAt_set_ne _ hxc]
  have hcpost : (nodeAt h' c).parent = some q := by rw [ec]
  have epar : ∀ x, x ≠ i → x ≠ c →
      (nodeAt h' x).parent = (nodeAt h x).parent := by
    intro x hxi hxc
    by_cases hxq : x = q
    · subst hxq; rw [eqq, hBpar]
    · rw [eo x hxi hxq hxc]
  have eslots : ∀ x, x ≠ q → (nodeAt h' x).left = (nodeAt h x).left ∧
      (nodeAt h' x).right = (nodeAt h x).right := by
    intro x hxq
    by_cases hxi : x = i
    · subst hxi; rw [ei]; exact ⟨rfl, rfl⟩
    · by_cases hxc : x = c
      · subst hxc; rw [ec]; exact ⟨rfl, rfl⟩
      · rw [eo x hxi hxq hxc]; exact ⟨rfl, rfl⟩
  -- liveness bookkeeping
  have hlive1 : liveSet h1 = liveSet h := by
    refine liveSet_set_of_iff ?_
    rw [hcpar]
    constructor
    · intro he
      exact absurd (Option.some_inj.mp he).symm hcne
    · intro he
      exact absurd (Option.some_inj.mp he) hqc
  have hlivem : liveSet hm = liveSet h := by
    rw [hhm, liveSet_set_of_iff (by rw [hBpar, hh1, nodeAt_set_ne _ hqc]), hlive1]
  have hlive' : liveSet h' = (liveSet h).erase i := by
    rw [hh', liveSet_set_deprecate (by rw [hlenm]; exact hi) rfl, hlivem]
  have himem : i ∈ liveSet h := mem_liveSet.mpr ⟨hi, hilive⟩
  have hlc' : liveCount h' = liveCount h - 1 := by
    rw [liveCount, hlive', Finset.card_erase_of_mem himem]; rfl
  have hone : 1 ≤ liveCount h := Finset.card_pos.mpr ⟨i, himem⟩
  have huniq : ∀ x, x < h.length → (nodeAt h x).parent = some i → x ≠ i →
      x = c := by
    intro x hx hpx hxi
    have := wf_unique_child hwf hno2 x hx hpx hxi
    rw [hchild] at this
    exact (Option.some_inj.mp this).symm
  have hqsd := (wf_at hwf hqlen hqlive).2.2.2.2
  have hqleftok := (wf_at hwf hqlen hqlive).1
  have hqrightok := (wf_at hwf hqlen hqlive).2.1
  -- the untouched slot of q cannot hold c
  have hqright_ne_c : (nodeAt h q).right ≠ some c := by
    intro he
    have hco := hqrightok
    rw [he] at hco
    have hco2 := hco.2
    rw [hcpar] at hco2
    exact hqne (Option.some_inj.mp hco2).symm
  have hqleft_ne_c : (nodeAt h q).left ≠ some c := by
    intro he
    have hco := hqleftok
    rw [he] at hco
    have hco2 := hco.2
    rw [hcpar] at hco2
    exact hqne (Option.some_inj.mp hco2).symm
  refine ⟨?_, ?_, ?_, ?_⟩
  · have hs := wf_size hwf
    simp only [hlc']
    rw [hs]
    omega
  · intro hcon
    rw [hrt] at hcon
    exact absurd hcon (by simp)
  · rw [hrt]
    have hro := wf_rootOK hwf
    rw [hrt] at hro
    have hrtc : rt ≠ c := by
      intro he
      have hro2 := hro.2
      rw [he, hcpar] at hro2
      exact absurd hro2 (by simp)
    exact ⟨by rw [hlen']; exact hro.1, by rw [epar rt hrti hrtc]; exact hro.2⟩
  · intro x hx hxlive
    rw [hlen'] at hx
    have hxi : x ≠ i := by
      intro he
      subst he
      rw [ei] at hxlive
      exact hxlive rfl
    have hxlivepre : (nodeAt h x).parent ≠ some x := by
      by_cases hxc : x = c
      · subst hxc; exact hclive
      · rw [← epar x hxi hxc]; exact hxlive
    have hwx := wf_at hwf hx hxlivepre
    have htrans : ∀ o, o ≠ some i → o ≠ some c → childOK h x o →
        childOK h' x o := by
      intro o hoi hoc ho
      rcases o with _ | d
      · trivial
      · obtain ⟨hdlen, hdpar⟩ := ho
        have hdi : d ≠ i := fun he => hoi (by rw [he])
        have hdc : d ≠ c := fun he => hoc (by rw [he])
        exact ⟨by rw [hlen']; exact hdlen, by rw [epar d hdi hdc]; exact hdpar⟩
    refine ⟨?_, ?_, ?_, ?_, ?_⟩
    · by_cases hxq : x = q
      · subst hxq
        rw [eqq]
        rcases hBcase with ⟨hbl, hbr, hql⟩ | ⟨hbr, hbl, hs, hql⟩
        · rw [hbl]
          exact ⟨by rw [hlen']; exact hclen, hcpost⟩
        · rw [hbl]
          refine htrans _ (fun he => hql (by rw [he])) ?_ hqleftok
          exact hqleft_ne_c
      · rw [(eslots x hxq).1]
        refine htrans _ ?_ ?_ hwx.1
        · intro he
          have hcok := hwx.1
          rw [he] at hcok
          have hcok2 := hcok.2
          rw [hq] at hcok2
          exact hxq (Option.some_inj.mp hcok2).symm
        · intro he
          have hcok := hwx.1
          rw [he] at hcok
          have hcok2 := hcok.2
          rw [hcpar] at hcok2
          exact hxi (Option.some_inj.mp hcok2).symm
    · by_cases hxq : x = q
      · subst hxq
        rw [eqq]
        rcases hBcase with ⟨hbl, hbr, hql⟩ | ⟨hbr, hbl, hs, hql⟩
        · rw [hbr]
          refine htrans _ ?_ hqright_ne_c hqrightok
          intro he
          unfold slotsDistinct at hqsd
          rcases hqsd with hn | hne
          · rw [hn] at hql; exact absurd hql (by simp)
          · rw [hql, he] at hne; exact hne rfl
        · rw [hbr]
          exact ⟨by rw [hlen']; exact hclen, hcpost⟩
      · rw [(eslots x hxq).2]
        refine htrans _ ?_ ?_ hwx.2.1
        · intro he
          have hcok := hwx.2.1
          rw [he] at hcok
          have hcok2 := hcok.2
          rw [hq] at hcok2
          exact hxq (Option.some_inj.mp hcok2).symm
        · intro he
          have hcok := hwx.2.1
          rw [he] at hcok
          have hcok2 := hcok.2
          rw [hcpar] at hcok2
          exact hxi (Option.some_inj.mp hcok2).symm
    · by_cases hxc : x = c
      · subst hxc
        rw [hcpost]
        refine ⟨by rw [hlen']; exact hqlen, ?_⟩
        rw [eqq]
        rcases hBcase with ⟨hbl, hbr, hql⟩ | ⟨hbr, hbl, hs, hql⟩
        · left; rw [hbl]
        · right; rw [hbr]
      · rw [epar x hxi hxc]
        rcases hw : (nodeAt h x).parent with _ | w
        · trivial
        · have hpb := hwx.2.2.1
          rw [hw] at hpb
          obtain ⟨hwlen, hws⟩ := hpb
          refine ⟨by rw [hlen']; exact hwlen, ?_⟩
          by_cases hwq : w = q
          · subst hwq
            rw [eqq]
            rcases hBcase with ⟨hbl, hbr, hql⟩ | ⟨hbr, hbl, hs, hql⟩
            · rcases hws with hws | hws
              · rw [hws] at hql
                exact absurd (Option.some_inj.mp hql) hxi
              · right; rw [hbr]; exact hws
            · rcases hws with hws | hws
              · left; rw [hbl]; exact hws
              · rw [hws] at hs
                exact absurd (Option.some_inj.mp hs) hxi
          · have hwi : w ≠ i := by
              intro he
              rw [he] at hw
              exact hxc (huniq x hx hw hxi)
            rw [(eslots w hwq).1, (eslots w hwq).2]
            exact hws
    · unfold ReachesRoot
      rw [hrt]
      by_cases hxc : x = c
      · subst hxc
        have hrrI : ReachesRoot h t i := (wf_at hwf hi hilive).2.2.2.1
        unfold ReachesRoot at hrrI
        rw [hrt] at hrrI
        obtain ⟨k, hkmem, hk⟩ := hrrI
        rw [List.mem_range] at hkmem
        cases k with
        | zero =>
          exact absurd (Option.some_inj.mp hk) (fun he => hrti he.symm)
        | succ m =>
          simp only [pIter, hq] at hk
          by_cases hqi2 : q = i
          · exact absurd hqi2 hqne
          · obtain ⟨k', hk', hit⟩ := chain_reroute_nonroot
              (wf_closedParents hwf) huniq epar hcpar
              (by rw [hcpost, hq]) hrti m q hqlen hqi2 hk
            refine ⟨k' + 1, ?_, ?_⟩
            · rw [List.mem_range, hlen']
              omega
            · simp only [pIter, hcpost]
              exact hit
      · have hrr := hwx.2.2.2.1
        unfold ReachesRoot at hrr
        rw [hrt] at hrr
        obtain ⟨k, hkmem, hk⟩ := hrr
        obtain ⟨k', hk', hit⟩ := chain_reroute_nonroot
          (wf_closedParents hwf) huniq epar hcpar (by rw [hcpost, hq]) hrti
          k x hx hxi hk
        refine ⟨k', ?_, hit⟩
        rw [List.mem_range] at hkmem ⊢
        rw [hlen']
        omega
    · unfold slotsDistinct
      by_cases hxq : x = q
      · subst hxq
        rw [eqq]
        rcases hBcase with ⟨hbl, hbr, hql⟩ | ⟨hbr, hbl, hs, hql⟩
        · right
          rw [hbl, hbr]
          intro he
          exact hqright_ne_c he.symm
        · rcases hbl2 : B.left with _ | d
          · left; rfl
          · right
            rw [hbr]
            rw [hbl] at hbl2
            intro he
            rw [he] at hbl2
            exact hqleft_ne_c hbl2
      · rw [(eslots x hxq).1, (eslots x hxq).2]
        exact hwx.2.2.2.2

/-- `delete` preserves well-formedness, whether it returns or raises. -/
lemma delete_wf [Inhabited α] {h : Heap α} {t : LBT} (hwf : WF h t) (p : Pos) :
    WF (delete h t p).2.1 (delete h t p).2.2 := by
  rcases hval : validate h t p with er | i
  · have : delete h t p = (.error er, h, t) := by
      unfold delete
      rw [hval]
    rw [this]
    exact hwf
  · obtain ⟨hc, hip, hilen, hlivp⟩ := validate_ok_iff.mp hval
    have hcnt := numChildren_eq hval
    by_cases h2 : ((if (nodeAt h i).left ≠ none then 1 else 0) +
        (if (nodeAt h i).right ≠ none then 1 else 0)) = 2
    · have : delete h t p =
          (.error (.valueErr "p has 2 children and cannot be deleted."), h, t) := by
        unfold delete
        rw [hval, hcnt]
        simp only [if_pos h2]
      rw [this]
      exact hwf
    · have hilen' : i < h.length := hip ▸ hilen
      have hlivp' : (nodeAt h i).parent ≠ some i := by rw [hip]; exact hlivp
      have hno2 : ¬((nodeAt h i).left ≠ none ∧ (nodeAt h i).right ≠ none) := by
        intro hb
        exact h2 (Except.ok.inj ((hcnt.symm.trans
          ((numChildren_two_iff hval).mpr hb))))
      rcases delete_ok_cases hwf hval hcnt h2 with
        ⟨hroot, hchild, heq⟩ |
        ⟨c, hroot, hchild, hcne, hclen, hcpar, hpnone, heq⟩ |
        ⟨q, hroot, hchild, hq, hqlen, hqne, hqslot, heq⟩ |
        ⟨c, q, hroot, hchild, hcne, hclen, hcpar, hq, hqlen, hqne, hqc, hqslot, heq⟩
      · rw [heq]
        obtain ⟨hl, hr⟩ := childOf_none_iff.mp hchild
        exact wf_delete_root_nochild hwf hilen' hlivp' hroot hl hr
      · rw [heq]
        exact wf_delete_root_child hwf hilen' hlivp' hroot hno2 hchild hcne
          hclen hcpar
      · rw [heq]
        obtain ⟨hl, hr⟩ := childOf_none_iff.mp hchild
        exact wf_delete_nonroot_nochild hwf hilen' hlivp' hroot hl hr hq hqlen
          hqne hqslot
      · rw [heq]
        exact wf_delete_nonroot_child hwf hilen' hlivp' hroot hno2 hchild hcne
          hclen hcpar hq hqlen hqne hqc hqslot

end DeleteLemmas

/-!
## Preservation of WF by the other mutating operations
-/

section OtherOpsWF

/-- WF only depends on the length, the parent and slot fields, and the tree
record. -/
lemma WF_transfer [Inhabited α] {h h' : Heap α} {t : LBT}
    (hlen : h'.length = h.length)
    (hfields : ∀ x, x < h.length →
      (nodeAt h' x).parent = (nodeAt h x).parent ∧
      (nodeAt h' x).left = (nodeAt h x).left ∧
      (nodeAt h' x).right = (nodeAt h x).right)
    (hwf : WF h t) : WF h' t := by
  have hparAll : ∀ x, (nodeAt h' x).parent = (nodeAt h x).parent := by
    intro x
    by_cases hx : x < h.length
    · exact (hfields x hx).1
    · rw [nodeAt_ge (le_of_not_lt hx), nodeAt_ge (by rw [hlen]; exact le_of_not_lt hx)]
  have hls : liveSet h' = liveSet h := by
    ext x
    simp only [mem_liveSet, hlen, hparAll]
  have hpiter := pIter_congr hparAll
  obtain ⟨hw1, hw2, hw3, hw4⟩ := hwf
  refine ⟨?_, ?_, ?_, ?_⟩
  · rw [hw1, liveCount, liveCount, hls]
  · intro hcon
    rw [liveCount, hls]
    exact hw2 hcon
  · rcases hr : t.root with _ | r
    · trivial
    · rw [hr] at hw3
      exact ⟨by rw [hlen]; exact hw3.1, by rw [hparAll r]; exact hw3.2⟩
  · intro x hx hxlive
    rw [hlen] at hx
    rw [hparAll x] at hxlive
    obtain ⟨hcl, hcr, hpb, hrr, hsd⟩ := hw4 x hx hxlive
    have htrans : ∀ o, childOK h x o → childOK h' x o := by
      intro o ho
      rcases o with _ | d
      · trivial
      · exact ⟨by rw [hlen]; exact ho.1, by rw [hparAll d]; exact ho.2⟩
    refine ⟨?_, ?_, ?_, ?_, ?_⟩
    · rw [(hfields x hx).2.1]; exact htrans _ hcl
    · rw [(hfields x hx).2.2]; exact htrans _ hcr
    · rw [hparAll x]
      rcases hwp : (nodeAt h x).parent with _ | w
      · trivial
      · rw [hwp] at hpb
        have hwlen : w < h.length := hpb.1
        refine ⟨by rw [hlen]; exact hwlen, ?_⟩
        rw [(hfields w hwlen).2.1, (hfields w hwlen).2.2]
        exact hpb.2
    · unfold ReachesRoot at hrr ⊢
      rcases hr : t.root with _ | r
      · rw [hr] at hrr; exact hrr
      · rw [hr] at hrr
        obtain ⟨k, hkmem, hk⟩ := hrr
        refine ⟨k, ?_, by rw [hpiter]; exact hk⟩
        rw [List.mem_range] at hkmem ⊢
        rw [hlen]
        exact hkmem
    · unfold slotsDistinct at hsd ⊢
      rw [(hfields x hx).2.1, (hfields x hx).2.2]
      exact hsd

/-- `replace` preserves well-formedness (the tree record is untouched). -/
lemma replace_wf [Inhabited α] {h : Heap α} {t : LBT} (hwf : WF h t)
    (p : Pos) (e : α) : WF (replaceOp h t p e).2 t := by
  rcases hval : validate h t p with er | i
  · have : replaceOp h t p e = (.error er, h) := by
      unfold replaceOp; rw [hval]
    rw [this]
    exact hwf
  · obtain ⟨hc, hip, hilen, hlivp⟩ := validate_ok_iff.mp hval
    have hilen' : i < h.length := hip ▸ hilen
    have : replaceOp h t p e =
        (.ok (nodeAt h i).element,
         setNode h i { nodeAt h i with element := e }) := by
      unfold replaceOp; rw [hval]
    rw [this]
    refine WF_transfer (length_setNode ..) ?_ hwf
    intro x hx
    by_cases hxi : x = i
    · subst hxi
      rw [nodeAt_set_self _ hilen']
      exact ⟨rfl, rfl, rfl⟩
    · rw [nodeAt_set_ne _ hxi]
      exact ⟨rfl, rfl, rfl⟩

/-- `add_root` preserves well-formedness. -/
lemma addRoot_wf [Inhabited α] {h : Heap α} {t : LBT} (hwf : WF h t)
    (e : α) : WF (addRoot h t e).2.1 (addRoot h t e).2.2 := by
  by_cases hr : t.root ≠ none
  · have : addRoot h t e = (.error (.valueErr "Root exists!"), h, t) := by
      unfold addRoot; rw [if_pos hr]
    rw [this]
    exact hwf
  · have hrn : t.root = none := not_not.mp hr
    have heq : addRoot h t e =
        (.ok ⟨t.id, h.length⟩, h ++ [⟨e, none, none, none⟩],
         { t with size := 1, root := some h.length }) := by
      unfold addRoot; rw [if_neg hr]
    rw [heq]
    show WF (h ++ [(⟨e, none, none, none⟩ : PyNode α)])
      { t with size := 1, root := some h.length }
    have hdead : ∀ x, x < h.length → (nodeAt h x).parent = some x :=
      liveCount_zero_iff.mp (wf_root_none hwf hrn)
    have hlsnew : liveSet (h ++ [(⟨e, none, none, none⟩ : PyNode α)]) =
        insert h.length (liveSet h) :=
      liveSet_append (by simp)
    have hlsold : liveSet h = ∅ := by
      rw [← Finset.card_eq_zero, ← liveCount]
      exact wf_root_none hwf hrn
    have hnew : nodeAt (h ++ [(⟨e, none, none, none⟩ : PyNode α)]) h.length
        = ⟨e, none, none, none⟩ := nodeAt_append_self _
    refine ⟨?_, ?_, ?_, ?_⟩
    · rw [liveCount, hlsnew, hlsold]
      simp
    · intro hcon
      exact absurd hcon (by simp)
    · refine ⟨by simp [List.length_append], ?_⟩
      rw [hnew]
    · intro x hx hxlive
      rw [List.length_append] at hx
      simp only [List.length_singleton] at hx
      by_cases hxl : x = h.length
      · subst hxl
        rw [hnew]
        refine ⟨trivial, trivial, trivial, ?_, Or.inl (by rw [hnew])⟩
        unfold ReachesRoot
        refine ⟨0, ?_, rfl⟩
        simp
      · have hxlt : x < h.length := by omega
        rw [nodeAt_append_lt hxlt] at hxlive
        exact absurd (hdead x hxlt) hxlive

/-- `add_left` preserves well-formedness. -/
lemma addLeft_wf [Inhabited α] {h : Heap α} {t : LBT} (hwf : WF h t)
    (p : Pos) (e : α) :
    WF (addLeft h t p e).2.1 (addLeft h t p e).2.2 := by
  rcases hval : validate h t p with er | i
  · have : addLeft h t p e = (.error er, h, t) := by
      unfold addLeft; rw [hval]
    rw [this]
    exact hwf
  · obtain ⟨hc, hip, hilen, hlivp⟩ := validate_ok_iff.mp hval
    have hilen' : i < h.length := hip ▸ hilen
    have hlivp' : (nodeAt h i).parent ≠ some i := by rw [hip]; exact hlivp
    by_cases hocc : (nodeAt h i).left ≠ none
    · have : addLeft h t p e =
          (.error (.valueErr "Left child already exist"), h, t) := by
        unfold addLeft
        rw [hval]
        simp only [if_pos hocc]
      rw [this]
      exact hwf
    · have hlnone : (nodeAt h i).left = none := not_not.mp hocc
      have heq : addLeft h t p e =
          (.ok ⟨t.id, h.length⟩,
           setNode h i { nodeAt h i with left := some h.length } ++
             [⟨e, some i, none, none⟩],
           { t with size := t.size + 1 }) := by
        unfold addLeft
        rw [hval]
        simp only [if_neg hocc]
      rw [heq]
      show WF (setNode h i { nodeAt h i with left := some h.length } ++
          [(⟨e, some i, none, none⟩ : PyNode α)]) { t with size := t.size + 1 }
      set j := h.length with hj
      set nn : PyNode α := ⟨e, some i, none, none⟩ with hnn
      set h1 := setNode h i { (nodeAt h i) with left := some j } with hh1
      set h' := h1 ++ [nn] with hh'
      have hlen1 : h1.length = h.length := length_setNode ..
      have hlen' : h'.length = h.length + 1 := by
        rw [hh', List.length_append, hlen1]
        rfl
      have hij : i ≠ j := fun he => absurd (he ▸ hilen') (lt_irrefl _)
      have ei : nodeAt h' i = { nodeAt h i with left := some j } := by
        rw [hh', nodeAt_append_lt (by rw [hlen1]; exact hilen'),
          hh1, nodeAt_set_self _ hilen']
      have ej : nodeAt h' j = nn := by
        rw [hh', (show j = h1.length by rw [hlen1]), nodeAt_append_self]
      have eo : ∀ x, x < h.length → x ≠ i → nodeAt h' x = nodeAt h x := by
        intro x hx hxi
        rw [hh', nodeAt_append_lt (by rw [hlen1]; exact hx), hh1,
          nodeAt_set_ne _ hxi]
      have epar : ∀ x, x < h.length →
          (nodeAt h' x).parent = (nodeAt h x).parent := by
        intro x hx
        by_cases hxi : x = i
        · subst hxi; rw [ei]
        · rw [eo x hx hxi]
      have hclosed := wf_closedParents hwf
      have hchain : ∀ k x, x < h.length → pIter h' k x = pIter h k x := by
        intro k x hx
        have h1chain : ∀ k x, pIter h1 k x = pIter h k x := by
          refine pIter_congr ?_
          intro y
          by_cases hy : y < h.length
          · by_cases hyi : y = i
            · subst hyi; rw [hh1, nodeAt_set_self _ hilen']
            · rw [hh1, nodeAt_set_ne _ hyi]
          · rw [hh1, nodeAt_ge (by rw [length_setNode]; exact le_of_not_lt hy),
              nodeAt_ge (le_of_not_lt hy)]
        have h1closed : ∀ y, y < h1.length → ∀ z,
            (nodeAt h1 y).parent = some z → z < h1.length := by
          intro y hy z hz
          rw [hlen1] at hy ⊢
          by_cases hyi : y = i
          · subst hyi
            rw [hh1, nodeAt_set_self _ hilen'] at hz
            exact hclosed y hilen' z hz
          · rw [hh1, nodeAt_set_ne _ hyi] at hz
            exact hclosed y hy z hz
        rw [hh', pIter_append h1closed k x (by rw [hlen1]; exact hx), h1chain]
      -- liveness
      have hlive1 : liveSet h1 = liveSet h := by
        rw [hh1]
        refine liveSet_set_of_iff ?_
        constructor <;> intro he <;> exact he
      have hlive' : liveSet h' = insert j (liveSet h1) := by
        rw [hh', (show j = h1.length by rw [hlen1])]
        refine liveSet_append ?_
        rw [hnn]
        simp only [ne_eq, Option.some_inj]
        rw [hlen1, ← hj]
        exact hij
      obtain ⟨rt, hrt⟩ := wf_root_of_live hwf hilen' hlivp'
      have hro := wf_rootOK hwf
      rw [hrt] at hro
      refine ⟨?_, ?_, ?_, ?_⟩
      · rw [liveCount, hlive', hlive1,
          Finset.card_insert_of_not_mem length_not_mem_liveSet]
        have hs := wf_size hwf
        rw [hs, liveCount]
        push_cast
        ring
      · intro hcon
        rw [hrt] at hcon
        exact absurd hcon (by simp)
      · rw [hrt]
        refine ⟨by rw [hlen']; have := hro.1; omega, ?_⟩
        rw [epar rt hro.1]
        exact hro.2
      · intro x hx hxlive
        rw [hlen'] at hx
        by_cases hxj : x = j
        · subst hxj
          rw [ej]
          refine ⟨trivial, trivial, ?_, ?_, Or.inl (by rw [ej])⟩
          · exact ⟨by rw [hlen']; have := hilen'; omega, Or.inl (by rw [ei])⟩
          · unfold ReachesRoot
            rw [hrt]
            have hrri := (wf_at hwf hilen' hlivp').2.2.2.1
            unfold ReachesRoot at hrri
            rw [hrt] at hrri
            obtain ⟨k, hkmem, hk⟩ := hrri
            rw [List.mem_range] at hkmem
            refine ⟨k + 1, by rw [List.mem_range, hlen']; omega, ?_⟩
            have : (nodeAt h' j).parent = some i := by rw [ej]
            simp only [pIter, this]
            rw [hchain k i hilen']
            exact hk
        · have hxlt : x < h.length := by omega
          have hxlivepre : (nodeAt h x).parent ≠ some x := by
            rw [← epar x hxlt]; exact hxlive
          obtain ⟨hcl, hcr, hpb, hrr, hsd⟩ := wf_at hwf hxlt hxlivepre
          have htrans : ∀ o, childOK h x o → childOK h' x o := by
            intro o ho
            rcases o with _ | d
            · trivial
            · refine ⟨by rw [hlen']; have := ho.1; omega, ?_⟩
              rw [epar d ho.1]
              exact ho.2
          refine ⟨?_, ?_, ?_, ?_, ?_⟩
          · by_cases hxi : x = i
            · subst hxi
              rw [ei]
              simp only
              exact ⟨by rw [hlen']; omega, by rw [ej]⟩  -- j < len + 1
            · rw [(show (nodeAt h' x).left = (nodeAt h x).left by
                rw [eo x hxlt hxi])]
              exact htrans _ hcl
          · by_cases hxi : x = i
            · subst hxi
              rw [ei]
              simp only
              exact htrans _ hcr
            · rw [(show (nodeAt h' x).right = (nodeAt h x).right by
                rw [eo x hxlt hxi])]
              exact htrans _ hcr
          · rw [epar x hxlt]
            rcases hwp : (nodeAt h x).parent with _ | w
            · trivial
            · rw [hwp] at hpb
              obtain ⟨hwlen, hws⟩ := hpb
              refine ⟨by rw [hlen']; have := hwlen; omega, ?_⟩
              by_cases hwi : w = i
              · subst hwi
                rw [ei]
                rcases hws with hws | hws
                · rw [hlnone] at hws
                  exact absurd hws (by simp)
                · exact Or.inr hws
              · rw [eo w hwlen hwi]
                exact hws
          · unfold ReachesRoot
            rw [hrt]
            unfold ReachesRoot at hrr
            rw [hrt] at hrr
            obtain ⟨k, hkmem, hk⟩ := hrr
            rw [List.mem_range] at hkmem
            refine ⟨k, by rw [List.mem_range, hlen']; omega, ?_⟩
            rw [hchain k x hxlt]
            exact hk
          · unfold slotsDistinct
            by_cases hxi : x = i
            · subst hxi
              rw [ei]
              simp only
              right
              rcases hrr2 : (nodeAt h x).right with _ | d
              · simp
              · have hdlen : d < h.length := by
                  have := hcr
                  rw [hrr2] at this
                  exact this.1
                simp only [ne_eq, Option.some_inj]
                intro he
                rw [← he] at hdlen
                exact absurd hdlen (lt_irrefl _)
            · rw [(show (nodeAt h' x).left = (nodeAt h x).left by
                rw [eo x hxlt hxi]),
                (show (nodeAt h' x).right = (nodeAt h x).right by
                rw [eo x hxlt hxi])]
              exact hsd

/-- `add_right` preserves well-formedness. -/
lemma addRight_wf [Inhabited α] {h : Heap α} {t : LBT} (hwf : WF h t)
    (p : Pos) (e : α) :
    WF (addRight h t p e).2.1 (addRight h t p e).2.2 := by
  rcases hval : validate h t p with er | i
  · have : addRight h t p e = (.error er, h, t) := by
      unfold addRight; rw [hval]
    rw [this]
    exact hwf
  · obtain ⟨hc, hip, hilen, hlivp⟩ := validate_ok_iff.mp hval
    have hilen' : i < h.length := hip ▸ hilen
    have hlivp' : (nodeAt h i).parent ≠ some i := by rw [hip]; exact hlivp
    by_cases hocc : (nodeAt h i).right ≠ none
    · have : addRight h t p e =
          (.error (.valueErr "Right child already exist"), h, t) := by
        unfold addRight
        rw [hval]
        simp only [if_pos hocc]
      rw [this]
      exact hwf
    · have hrnone : (nodeAt h i).right = none := not_not.mp hocc
      have heq : addRight h t p e =
          (.ok ⟨t.id, h.length⟩,
           setNode h i { nodeAt h i with right := some h.length } ++
             [⟨e, some i, none, none⟩],
           { t with size := t.size + 1 }) := by
        unfold addRight
        rw [hval]
        simp only [if_neg hocc]
      rw [heq]
      show WF (setNode h i { nodeAt h i with right := some h.length } ++
          [(⟨e, some i, none, none⟩ : PyNode α)]) { t with size := t.size + 1 }
      set j := h.length with hj
      set nn : PyNode α := ⟨e, some i, none, none⟩ with hnn
      set h1 := setNode h i { (nodeAt h i) with right := some j } with hh1
      set h' := h1 ++ [nn] with hh'
      have hlen1 : h1.length = h.length := length_setNode ..
      have hlen' : h'.length = h.length + 1 := by
        rw [hh', List.length_append, hlen1]
        rfl
      have hij : i ≠ j := fun he => absurd (he ▸ hilen') (lt_irrefl _)
      have ei : nodeAt h' i = { nodeAt h i with right := some j } := by
        rw [hh', nodeAt_append_lt (by rw [hlen1]; exact hilen'),
          hh1, nodeAt_set_self _ hilen']
      have ej : nodeAt h' j = nn := by
        rw [hh', (show j = h1.length by rw [hlen1]), nodeAt_append_self]
      have eo : ∀ x, x < h.length → x ≠ i → nodeAt h' x = nodeAt h x := by
        intro x hx hxi
        rw [hh', nodeAt_append_lt (by rw [hlen1]; exact hx), hh1,
          nodeAt_set_ne _ hxi]
      have epar : ∀ x, x < h.length →
          (nodeAt h' x).parent = (nodeAt h x).parent := by
        intro x hx
        by_cases hxi : x = i
        · subst hxi; rw [ei]
        · rw [eo x hx hxi]
      have hclosed := wf_closedParents hwf
      have hchain : ∀ k x, x < h.length → pIter h' k x = pIter h k x := by
        intro k x hx
        have h1chain : ∀ k x, pIter h1 k x = pIter h k x := by
          refine pIter_congr ?_
          intro y
          by_cases hy : y < h.length
          · by_cases hyi : y = i
            · subst hyi; rw [hh1, nodeAt_set_self _ hilen']
            · rw [hh1, nodeAt_set_ne _ hyi]
          · rw [hh1, nodeAt_ge (by rw [length_setNode]; exact le_of_not_lt hy),
              nodeAt_ge (le_of_not_lt hy)]
        have h1closed : ∀ y, y < h1.length → ∀ z,
            (nodeAt h1 y).parent = some z → z < h1.length := by
          intro y hy z hz
          rw [hlen1] at hy ⊢
          by_cases hyi : y = i
          · subst hyi
            rw [hh1, nodeAt_set_self _ hilen'] at hz
            exact hclosed y hilen' z hz
          · rw [hh1, nodeAt_set_ne _ hyi] at hz
            exact hclosed y hy z hz
        rw [hh', pIter_append h1closed k x (by rw [hlen1]; exact hx), h1chain]
      have hlive1 : liveSet h1 = liveSet h := by
        rw [hh1]
        refine liveSet_set_of_iff ?_
        constructor <;> intro he <;> exact he
      have hlive' : liveSet h' = insert j (liveSet h1) := by
        rw [hh', (show j = h1.length by rw [hlen1])]
        refine liveSet_append ?_
        rw [hnn]
        simp only [ne_eq, Option.some_inj]
        rw [hlen1, ← hj]
        exact hij
      obtain ⟨rt, hrt⟩ := wf_root_of_live hwf hilen' hlivp'
      have hro := wf_rootOK hwf
      rw [hrt] at hro
      refine ⟨?_, ?_, ?_, ?_⟩
      · rw [liveCount, hlive', hlive1,
          Finset.card_insert_of_not_mem length_not_mem_liveSet]
        have hs := wf_size hwf
        rw [hs, liveCount]
        push_cast
        ring
      · intro hcon
        rw [hrt] at hcon
        exact absurd hcon (by simp)
      · rw [hrt]
        refine ⟨by rw [hlen']; have := hro.1; omega, ?_⟩
        rw [epar rt hro.1]
        exact hro.2
      · intro x hx hxlive
        rw [hlen'] at hx
        by_cases hxj : x = j
        · subst hxj
          rw [ej]
          refine ⟨trivial, trivial, ?_, ?_, Or.inl (by rw [ej])⟩
          · exact ⟨by rw [hlen']; have := hilen'; omega, Or.inr (by rw [ei])⟩
          · unfold ReachesRoot
            rw [hrt]
            have hrri := (wf_at hwf hilen' hlivp').2.2.2.1
            unfold ReachesRoot at hrri
            rw [hrt] at hrri
            obtain ⟨k, hkmem, hk⟩ := hrri
            rw [List.mem_range] at hkmem
            refine ⟨k + 1, by rw [List.mem_range, hlen']; omega, ?_⟩
            have : (nodeAt h' j).parent = some i := by rw [ej]
            simp only [pIter, this]
            rw [hchain k i hilen']
            exact hk
        · have hxlt : x < h.length := by omega
          have hxlivepre : (nodeAt h x).parent ≠ some x := by
            rw [← epar x hxlt]; exact hxlive
          obtain ⟨hcl, hcr, hpb, hrr, hsd⟩ := wf_at hwf hxlt hxlivepre
          have htrans : ∀ o, childOK h x o → childOK h' x o := by
            intro o ho
            rcases o with _ | d
            · trivial
            · refine ⟨by rw [hlen']; have := ho.1; omega, ?_⟩
              rw [epar d ho.1]
              exact ho.2
          refine ⟨?_, ?_, ?_, ?_, ?_⟩
          · by_cases hxi : x = i
            · subst hxi
              rw [ei]
              simp only
              exact htrans _ hcl
            · rw [(show (nodeAt h' x).left = (nodeAt h x).left by
                rw [eo x hxlt hxi])]
              exact htrans _ hcl
          · by_cases hxi : x = i
            · subst hxi
              rw [ei]
              simp only
              exact ⟨by rw [hlen']; omega, by rw [ej]⟩
            · rw [(show (nodeAt h' x).right = (nodeAt h x).right by
                rw [eo x hxlt hxi])]
              exact htrans _ hcr
          · rw [epar x hxlt]
            rcases hwp : (nodeAt h x).parent with _ | w
            · trivial
            · rw [hwp] at hpb
              obtain ⟨hwlen, hws⟩ := hpb
              refine ⟨by rw [hlen']; have := hwlen; omega, ?_⟩
              by_cases hwi : w = i
              · subst hwi
                rw [ei]
                rcases hws with hws | hws
                · exact Or.inl hws
                · rw [hrnone] at hws
                  exact absurd hws (by simp)
              · rw [eo w hwlen hwi]
                exact hws
          · unfold ReachesRoot
            rw [hrt]
            unfold ReachesRoot at hrr
            rw [hrt] at hrr
            obtain ⟨k, hkmem, hk⟩ := hrr
            rw [List.mem_range] at hkmem
            refine ⟨k, by rw [List.mem_range, hlen']; omega, ?_⟩
            rw [hchain k x hxlt]
            exact hk
          · unfold slotsDistinct
            by_cases hxi : x = i
            · subst hxi
              rw [ei]
              simp only
              rcases hll2 : (nodeAt h x).left with _ | d
              · left; rfl
              · right
                have hdlen : d < h.length := by
                  have := hcl
                  rw [hll2] at this
                  exact this.1
                simp only [ne_eq, Option.some_inj]
                intro he
                rw [he] at hdlen
                exact absurd hdlen (lt_irrefl _)
            · rw [(show (nodeAt h' x).left = (nodeAt h x).left by
                rw [eo x hxlt hxi]),
                (show (nodeAt h' x).right = (nodeAt h x).right by
                rw [eo x hxlt hxi])]
              exact hsd

/-- A fresh `LinkedBinaryTree()` over the empty arena is well-formed. -/
lemma wf_empty [Inhabited α] (idn pt : Nat) :
    WF ([] : Heap α) ⟨idn, pt, none, 0⟩ := by
  refine ⟨?_, ?_, trivial, ?_⟩
  · simp [liveCount, liveSet]
  · intro _
    simp [liveCount, liveSet]
  · intro x hx
    simp at hx

/-- Every attach-free reachable state is well-formed. -/
lemma reach_wf [Inhabited α] {h : Heap α} {t : LBT} (hr : Reach h t) :
    WF h t := by
  induction hr with
  | new idn pt => exact wf_empty idn pt
  | stepAddRoot e _ ih => exact addRoot_wf ih e
  | stepAddLeft p e _ ih => exact addLeft_wf ih p e
  | stepAddRight p e _ ih => exact addRight_wf ih p e
  | stepReplace p e _ ih => exact replace_wf ih p e
  | stepDelete p _ ih => exact delete_wf ih p

end OtherOpsWF

/-!
## Example states used by the claim theorems
-/

/-- Root `'M'` with left child `'E'` and right child `'Z'`, built by the
public operations. -/
def mezState : Heap Char × LBT :=
  let s1 := addRoot ([] : Heap Char) ⟨0, 0, none, 0⟩ 'M'
  let s2 := addLeft s1.2.1 s1.2.2 ⟨0, 0⟩ 'E'
  let s3 := addRight s2.2.1 s2.2.2 ⟨0, 0⟩ 'Z'
  (s3.2.1, s3.2.2)

/-- Three-level tree: root `'a'`, children `'b'` and `'c'`, one grandchild
under each child. -/
def lvlState : Heap Char × LBT :=
  let s1 := addRoot ([] : Heap Char) ⟨0, 0, none, 0⟩ 'a'
  let s2 := addLeft s1.2.1 s1.2.2 ⟨0, 0⟩ 'b'
  let s3 := addRight s2.2.1 s2.2.2 ⟨0, 0⟩ 'c'
  let s4 := addLeft s3.2.1 s3.2.2 ⟨0, 1⟩ 'd'
  let s5 := addLeft s4.2.1 s4.2.2 ⟨0, 2⟩ 'e'
  (s5.2.1, s5.2.2)

/-- Tree `0` holding a single root `'x'`, tree `1` holding a single root
`'y'`, then `attach` of tree `1` (and an empty tree `2`) below the leaf of
tree `0`: the components after the attach. -/
def attachedState : Heap Char × LBT × LBT × LBT :=
  let s1 := addRoot ([] : Heap Char) ⟨0, 0, none, 0⟩ 'x'
  let s2 := addRoot s1.2.1 ⟨1, 0, none, 0⟩ 'y'
  let r := attachOp s2.2.1 s1.2.2 ⟨0, 0⟩ s2.2.2 ⟨2, 0, none, 0⟩
  (r.2.1, r.2.2.1, r.2.2.2.1, r.2.2.2.2)

/-!
## The claims
-/

/-- C3, counterexample: the claim "count == 0 iff root() is none over every
state reachable by the public operations including attach" is false on the
code.  From an empty tree, `add_root('a')` and then
`attach(root, t1, t2)` with two freshly constructed empty trees is a legal
operation sequence (the root is a leaf, the types match), and `_attach`
recomputes `self._size = len(t1) + len(t2) = 0` while the root node stays:
the resulting state has `count == 0` and `root() != none`. -/
theorem c3_counterexample :
    ReachFull
      [({ element := 'a', parent := none, left := none, right := none } :
        PyNode Char)]
      ⟨0, 0, some 0, 0⟩ ∧
    (⟨0, 0, some 0, 0⟩ : LBT).size = 0 ∧
    ((⟨0, 0, some 0, 0⟩ : LBT).root ≠ none) := by
  refine ⟨?_, rfl, by simp⟩
  have h0 := ReachFull.new (α := Char) 0 0
  have h1 := ReachFull.stepAddRoot 'a' h0
  have h2 := ReachFull.stepAttachEmpty (⟨0, 0⟩ : Pos) 1 2 h1
  exact h2

/-- C3, amended: over every state reachable from an empty tree by the
public operations other than `attach` (`add_root`, `add_left`,
`add_right`, `replace`, `delete`), the tree's count equals `0` exactly
when `root()` returns none. -/
theorem c3_count_zero_iff_root_none {α : Type} [Inhabited α] {h : Heap α}
    {t : LBT} (hr : Reach h t) : t.size = 0 ↔ t.root = none := by
  have hwf := reach_wf hr
  constructor
  · intro hs
    rcases hro : t.root with _ | r
    · rfl
    · exfalso
      have hs' := wf_size hwf
      rw [hs] at hs'
      have hlc : liveCount h = 0 := by
        have := hs'.symm
        exact_mod_cast this
      have hrk := wf_rootOK hwf
      rw [hro] at hrk
      have hrlive : r ∈ liveSet h := by
        rw [mem_liveSet]
        exact ⟨hrk.1, by rw [hrk.2]; simp⟩
      rw [liveCount, Finset.card_eq_zero] at hlc
      rw [hlc] at hrlive
      exact absurd hrlive (Finset.not_mem_empty r)
  · intro hrn
    have hs := wf_size hwf
    rw [wf_root_none hwf hrn] at hs
    simpa using hs

/-- C3, witness: the amended theorem applied to the concrete reachable
state holding the single root `'M'`. -/
theorem c3_count_zero_iff_root_none_witness :
    ((addRoot ([] : Heap Char) ⟨0, 0, none, 0⟩ 'M').2.2.size = 0 ↔
      (addRoot ([] : Heap Char) ⟨0, 0, none, 0⟩ 'M').2.2.root = none) :=
  c3_count_zero_iff_root_none (Reach.stepAddRoot 'M' (Reach.new 0 0))

/-- C1: on a well-formed state, `delete(p)` on a valid position with at
most one child returns the element stored at `p`, decrements the count by
exactly one, promotes the single child (if any) so that its parent becomes
`p`'s former parent (none, and the child becomes the root, when `p` was
the root), and deprecates the removed node so that any position for that
node (same container, same node) subsequently fails validation with the
invalidity error. -/
theorem c1_delete_single_child {α : Type} [Inhabited α] {h : Heap α}
    {t : LBT} {p : Pos} {i cnt : Nat} (hwf : WF h t)
    (hv : validate h t p = .ok i) (hcnt : numChildren h t p = .ok cnt)
    (hle : cnt ≤ 1) :
    ∃ h' t', delete h t p = (.ok (nodeAt h i).element, h', t') ∧
      t'.size = t.size - 1 ∧ t'.id = t.id ∧ h'.length = h.length ∧
      (∀ c, childOf h i = some c →
        (nodeAt h' c).parent = (nodeAt h i).parent ∧
        (t.root = some i → (nodeAt h' c).parent = none ∧ t'.root = some c) ∧
        (t.root ≠ some i → t'.root = t.root)) ∧
      (childOf h i = none →
        (t.root = some i → t'.root = none) ∧
        (t.root ≠ some i → t'.root = t.root)) ∧
      (nodeAt h' i).parent = some i ∧
      (∀ p' : Pos, p'.container = t.id → p'.node = i →
        validate h' t' p' = .error (.valueErr "p is no longer valid")) := by
  have h2 : cnt ≠ 2 := by omega
  obtain ⟨hc, hip, hilen, hlivp⟩ := validate_ok_iff.mp hv
  have hilen' : i < h.length := hip ▸ hilen
  have hvalid_after : ∀ (h' : Heap α) (t' : LBT), h'.length = h.length →
      t'.id = t.id → (nodeAt h' i).parent = some i →
      ∀ p' : Pos, p'.container = t.id → p'.node = i →
        validate h' t' p' = .error (.valueErr "p is no longer valid") := by
    intro h' t' hlen hid hdep p' hpc hpn
    refine validate_deprecated (by rw [hpc, hid]) (by rw [hpn, hlen]; exact hilen') ?_
    rw [hpn, hdep]
  rcases delete_ok_cases hwf hv hcnt h2 with
    ⟨hroot, hchild, heq⟩ |
    ⟨c, hroot, hchild, hcne, hclen, hcpar, hpnone, heq⟩ |
    ⟨q, hroot, hchild, hq, hqlen, hqne, hqslot, heq⟩ |
    ⟨c, q, hroot, hchild, hcne, hclen, hcpar, hq, hqlen, hqne, hqc, hqslot, heq⟩
  · -- root, no child
    refine ⟨_, _, heq, rfl, rfl, length_setNode .., ?_, ?_, ?_, ?_⟩
    · intro c hcc
      rw [hchild] at hcc
      exact absurd hcc (by simp)
    · intro _
      exact ⟨fun _ => rfl, fun hno => absurd hroot hno⟩
    · rw [nodeAt_set_self _ hilen']
    · exact hvalid_after _ _ (length_setNode ..) rfl
        (by rw [nodeAt_set_self _ hilen'])
  · -- root, one child
    have hlen : (setNode (setNode h c { nodeAt h c with parent := none }) i
        { nodeAt h i with parent := some i }).length = h.length := by
      rw [length_setNode, length_setNode]
    have hdep : (nodeAt (setNode (setNode h c { nodeAt h c with parent := none }) i
        { nodeAt h i with parent := some i }) i).parent = some i := by
      rw [nodeAt_set_self _ (by rw [length_setNode]; exact hilen')]
    have hcread : (nodeAt (setNode (setNode h c { nodeAt h c with parent := none }) i
        { nodeAt h i with parent := some i }) c).parent = none := by
      rw [nodeAt_set_ne _ hcne, nodeAt_set_self _ hclen]
    refine ⟨_, _, heq, rfl, rfl, hlen, ?_, ?_, hdep, ?_⟩
    · intro c' hcc
      rw [hchild] at hcc
      have : c' = c := (Option.some_inj.mp hcc).symm
      subst this
      exact ⟨by rw [hcread, hpnone], fun _ => ⟨hcread, rfl⟩,
        fun hno => absurd hroot hno⟩
    · intro hcc
      rw [hchild] at hcc
      exact absurd hcc (by simp)
    · exact hvalid_after _ _ hlen rfl hdep
  · -- non-root, no child
    have hlen : (setNode (setNode h q (if (nodeAt h q).left = some i
        then { nodeAt h q with left := none }
        else { nodeAt h q with right := none })) i
        { nodeAt h i with parent := some i }).length = h.length := by
      rw [length_setNode, length_setNode]
    have hdep : (nodeAt (setNode (setNode h q (if (nodeAt h q).left = some i
        then { nodeAt h q with left := none }
        else { nodeAt h q with right := none })) i
        { nodeAt h i with parent := some i }) i).parent = some i := by
      rw [nodeAt_set_self _ (by rw [length_setNode]; exact hilen')]
    refine ⟨_, _, heq, rfl, rfl, hlen, ?_, ?_, hdep, ?_⟩
    · intro c' hcc
      rw [hchild] at hcc
      exact absurd hcc (by simp)
    · intro _
      exact ⟨fun his => absurd his hroot, fun _ => rfl⟩
    · exact hvalid_after _ _ hlen rfl hdep
  · -- non-root, one child
    have hlen : (setNode (setNode (setNode h c { nodeAt h c with parent := some q }) q
        (if (nodeAt h q).left = some i
         then { nodeAt h q with left := some c }
         else { nodeAt h q with right := some c })) i
        { nodeAt h i with parent := some i }).length = h.length := by
      rw [length_setNode, length_setNode, length_setNode]
    have hdep : (nodeAt (setNode (setNode (setNode h c
        { nodeAt h c with parent := some q }) q
        (if (nodeAt h q).left = some i
         then { nodeAt h q with left := some c }
         else { nodeAt h q with right := some c })) i
        { nodeAt h i with parent := some i }) i).parent = some i := by
      rw [nodeAt_set_self _ (by rw [length_setNode, length_setNode]; exact hilen')]
    have hcread : (nodeAt (setNode (setNode (setNode h c
        { nodeAt h c with parent := some q }) q
        (if (nodeAt h q).left = some i
         then { nodeAt h q with left := some c }
         else { nodeAt h q with right := some c })) i
        { nodeAt h i with parent := some i }) c).parent = some q := by
      rw [nodeAt_set_ne _ hcne]
      have : nodeAt (setNode (setNode h c { nodeAt h c with parent := some q }) q
          (if (nodeAt h q).left = some i
           then { nodeAt h q with left := some c }
           else { nodeAt h q with right := some c })) c
          = { nodeAt h c with parent := some q } := by
        by_cases hql : (nodeAt h q).left = some i
        · rw [if_pos hql, nodeAt_set_ne _ (fun he => hqc he.symm),
            nodeAt_set_self _ hclen]
        · rw [if_neg hql, nodeAt_set_ne _ (fun he => hqc he.symm),
            nodeAt_set_self _ hclen]
      rw [this]
    refine ⟨_, _, heq, rfl, rfl, hlen, ?_, ?_, hdep, ?_⟩
    · intro c' hcc
      rw [hchild] at hcc
      have : c' = c := (Option.some_inj.mp hcc).symm
      subst this
      exact ⟨by rw [hcread, hq], fun his => absurd his hroot, fun _ => rfl⟩
    · intro hcc
      rw [hchild] at hcc
      exact absurd hcc (by simp)
    · exact hvalid_after _ _ hlen rfl hdep

/-- C1, witness: deleting the leaf `'E'` of the `'M'/'E'/'Z'` tree. -/
theorem c1_delete_single_child_witness :
    ∃ h' t', delete mezState.1 mezState.2 ⟨0, 1⟩ =
        (.ok (nodeAt mezState.1 1).element, h', t') ∧
      t'.size = mezState.2.size - 1 ∧ t'.id = mezState.2.id ∧
      h'.length = mezState.1.length ∧
      (∀ c, childOf mezState.1 1 = some c →
        (nodeAt h' c).parent = (nodeAt mezState.1 1).parent ∧
        (mezState.2.root = some 1 → (nodeAt h' c).parent = none ∧
          t'.root = some c) ∧
        (mezState.2.root ≠ some 1 → t'.root = mezState.2.root)) ∧
      (childOf mezState.1 1 = none →
        (mezState.2.root = some 1 → t'.root = none) ∧
        (mezState.2.root ≠ some 1 → t'.root = mezState.2.root)) ∧
      (nodeAt h' 1).parent = some 1 ∧
      (∀ p' : Pos, p'.container = mezState.2.id → p'.node = 1 →
        validate h' t' p' = .error (.valueErr "p is no longer valid")) :=
  c1_delete_single_child (by decide)
    (show validate mezState.1 mezState.2 ⟨0, 1⟩ = .ok 1 from rfl)
    (show numChildren mezState.1 mezState.2 ⟨0, 1⟩ = .ok 0 from rfl)
    (by decide)

/-- C5: `delete(p)` on a valid position with two children always raises
the structural-conflict `ValueError` and hands back the input heap and
tree record unchanged: count, root, and the entire parent/child structure
and stored elements are identical. -/
theorem c5_delete_two_children {α : Type} [Inhabited α] {h : Heap α}
    {t : LBT} {p : Pos} (hcnt : numChildren h t p = .ok 2) :
    delete h t p =
      (.error (.valueErr "p has 2 children and cannot be deleted."), h, t) := by
  rcases hval : validate h t p with er | i
  · exfalso
    unfold numChildren at hcnt
    rw [hval] at hcnt
    exact absurd hcnt (by simp [Except.map])
  · unfold delete
    rw [hval, hcnt]
    simp

/-- C5, witness: deleting the root `'M'` of the `'M'/'E'/'Z'` tree, which
has two children, fails and returns the state unchanged. -/
theorem c5_delete_two_children_witness :
    delete mezState.1 mezState.2 ⟨0, 0⟩ =
      (.error (.valueErr "p has 2 children and cannot be deleted."),
       mezState.1, mezState.2) :=
  c5_delete_two_children
    (show numChildren mezState.1 mezState.2 ⟨0, 0⟩ = .ok 2 from rfl)

/-- C7: `replace(p, e2)` on a valid position returns the element
previously stored at `p` and changes nothing structural (same length, same
parent and child links everywhere; the tree record is not even touched by
the method), and replacing back the returned element restores exactly the
original heap. -/
theorem c7_replace_roundtrip {α : Type} [Inhabited α] {h : Heap α}
    {t : LBT} {p : Pos} {i : Nat} (hv : validate h t p = .ok i) (e2 : α) :
    replaceOp h t p e2 =
      (.ok (nodeAt h i).element, setNode h i { nodeAt h i with element := e2 }) ∧
    (setNode h i { nodeAt h i with element := e2 }).length = h.length ∧
    (∀ x, (nodeAt (setNode h i { nodeAt h i with element := e2 }) x).parent =
        (nodeAt h x).parent ∧
      (nodeAt (setNode h i { nodeAt h i with element := e2 }) x).left =
        (nodeAt h x).left ∧
      (nodeAt (setNode h i { nodeAt h i with element := e2 }) x).right =
        (nodeAt h x).right) ∧
    replaceOp (setNode h i { nodeAt h i with element := e2 }) t p
      ((nodeAt h i).element) = (.ok e2, h) := by
  obtain ⟨hc, hip, hilen, hlivp⟩ := validate_ok_iff.mp hv
  have hilen' : i < h.length := hip ▸ hilen
  set h1 := setNode h i { nodeAt h i with element := e2 } with hh1
  have e1 : nodeAt h1 i = { nodeAt h i with element := e2 } :=
    nodeAt_set_self _ hilen'
  have eo : ∀ x, x ≠ i → nodeAt h1 x = nodeAt h x := fun x hx =>
    nodeAt_set_ne _ hx
  have hfields : ∀ x, (nodeAt h1 x).parent = (nodeAt h x).parent ∧
      (nodeAt h1 x).left = (nodeAt h x).left ∧
      (nodeAt h1 x).right = (nodeAt h x).right := by
    intro x
    by_cases hx : x = i
    · subst hx; rw [e1]; exact ⟨rfl, rfl, rfl⟩
    · rw [eo x hx]; exact ⟨rfl, rfl, rfl⟩
  refine ⟨?_, length_setNode .., hfields, ?_⟩
  · unfold replaceOp
    rw [hv]
  · have hv1 : validate h1 t p = .ok i := by
      rw [hip]
      refine validate_of_live hc (by rw [hh1, length_setNode]; exact hilen) ?_
      rw [← hip, (hfields i).1, hip]
      exact hlivp
    have hback : setNode h1 i
        { ({ nodeAt h i with element := e2 } : PyNode α) with
          element := (nodeAt h i).element } = h := by
      have hunit : ({ ({ nodeAt h i with element := e2 } : PyNode α) with
          element := (nodeAt h i).element } : PyNode α) = nodeAt h i := rfl
      rw [hunit, hh1]
      unfold setNode
      apply List.ext_getElem?
      intro x
      by_cases hx : x = i
      · subst hx
        rw [List.getElem?_set_self (by rw [List.length_set]; exact hilen'),
          getElem?_eq_some_nodeAt hilen']
      · rw [List.getElem?_set_ne (fun he => hx he.symm),
          List.getElem?_set_ne (fun he => hx he.symm)]
    unfold replaceOp
    rw [hv1]
    show (Except.ok (nodeAt h1 i).element,
      setNode h1 i { nodeAt h1 i with element := (nodeAt h i).element }) =
      (.ok e2, h)
    rw [e1, hback]

/-- C7, witness: replacing the root element `'M'` by `'W'` and back on the
`'M'/'E'/'Z'` tree. -/
theorem c7_replace_roundtrip_witness :
    replaceOp mezState.1 mezState.2 ⟨0, 0⟩ 'W' =
      (.ok (nodeAt mezState.1 0).element,
       setNode mezState.1 0 { nodeAt mezState.1 0 with element := 'W' }) ∧
    (setNode mezState.1 0 { nodeAt mezState.1 0 with element := 'W' }).length =
      mezState.1.length ∧
    (∀ x, (nodeAt (setNode mezState.1 0
        { nodeAt mezState.1 0 with element := 'W' }) x).parent =
        (nodeAt mezState.1 x).parent ∧
      (nodeAt (setNode mezState.1 0
        { nodeAt mezState.1 0 with element := 'W' }) x).left =
        (nodeAt mezState.1 x).left ∧
      (nodeAt (setNode mezState.1 0
        { nodeAt mezState.1 0 with element := 'W' }) x).right =
        (nodeAt mezState.1 x).right) ∧
    replaceOp (setNode mezState.1 0 { nodeAt mezState.1 0 with element := 'W' })
      mezState.2 ⟨0, 0⟩ ((nodeAt mezState.1 0).element) = (.ok 'W', mezState.1) :=
  c7_replace_roundtrip
    (show validate mezState.1 mezState.2 ⟨0, 0⟩ = .ok 0 from rfl) 'W'

/-- C6: on a valid position whose left slot is empty, `add_left(p, e)`
creates a new left child storing `e` — afterwards `left(p)` is that child's
position, its element is `e`, `num_children(p)` has grown by exactly one
and the count by one; on an occupied left slot it fails with no mutation.
`add_right` behaves symmetrically for the right slot. -/
theorem c6_add_left_right {α : Type} [Inhabited α] {h : Heap α} {t : LBT}
    {p : Pos} {i cnt : Nat} (hv : validate h t p = .ok i)
    (hcnt : numChildren h t p = .ok cnt) (e : α) :
    ((nodeAt h i).left = none →
      addLeft h t p e =
        (.ok ⟨t.id, h.length⟩,
         setNode h i { nodeAt h i with left := some h.length } ++
           [⟨e, some i, none, none⟩],
         { t with size := t.size + 1 }) ∧
      leftOp (setNode h i { nodeAt h i with left := some h.length } ++
          [⟨e, some i, none, none⟩]) { t with size := t.size + 1 } p =
        .ok (some ⟨t.id, h.length⟩) ∧
      posElement (setNode h i { nodeAt h i with left := some h.length } ++
          [⟨e, some i, none, none⟩]) ⟨t.id, h.length⟩ = e ∧
      numChildren (setNode h i { nodeAt h i with left := some h.length } ++
          [⟨e, some i, none, none⟩]) { t with size := t.size + 1 } p =
        .ok (cnt + 1)) ∧
    ((nodeAt h i).left ≠ none →
      addLeft h t p e = (.error (.valueErr "Left child already exist"), h, t)) ∧
    ((nodeAt h i).right = none →
      addRight h t p e =
        (.ok ⟨t.id, h.length⟩,
         setNode h i { nodeAt h i with right := some h.length } ++
           [⟨e, some i, none, none⟩],
         { t with size := t.size + 1 }) ∧
      rightOp (setNode h i { nodeAt h i with right := some h.length } ++
          [⟨e, some i, none, none⟩]) { t with size := t.size + 1 } p =
        .ok (some ⟨t.id, h.length⟩) ∧
      posElement (setNode h i { nodeAt h i with right := some h.length } ++
          [⟨e, some i, none, none⟩]) ⟨t.id, h.length⟩ = e ∧
      numChildren (setNode h i { nodeAt h i with right := some h.length } ++
          [⟨e, some i, none, none⟩]) { t with size := t.size + 1 } p =
        .ok (cnt + 1)) ∧
    ((nodeAt h i).right ≠ none →
      addRight h t p e = (.error (.valueErr "Right child already exist"), h, t)) := by
  obtain ⟨hc, hip, hilen, hlivp⟩ := validate_ok_iff.mp hv
  have hilen' : i < h.length := hip ▸ hilen
  have hlivp' : (nodeAt h i).parent ≠ some i := by rw [hip]; exact hlivp
  have hcnt' : cnt = (if (nodeAt h i).left ≠ none then 1 else 0) +
      (if (nodeAt h i).right ≠ none then 1 else 0) := by
    have := numChildren_eq hv
    rw [hcnt] at this
    exact Except.ok.inj this
  refine ⟨?_, ?_, ?_, ?_⟩
  · intro hlnone
    set h' := setNode h i { nodeAt h i with left := some h.length } ++
      [(⟨e, some i, none, none⟩ : PyNode α)] with hh'
    have hlen' : h'.length = h.length + 1 := by
      rw [hh', List.length_append, length_setNode]
      rfl
    have ei : nodeAt h' i = { nodeAt h i with left := some h.length } := by
      rw [hh', nodeAt_append_lt (by rw [length_setNode]; exact hilen'),
        nodeAt_set_self _ hilen']
    have ej : nodeAt h' h.length = ⟨e, some i, none, none⟩ := by
      have hx := nodeAt_append_self
        (h := setNode h i { nodeAt h i with left := some h.length })
        (⟨e, some i, none, none⟩ : PyNode α)
      rw [length_setNode] at hx
      exact hx
    have hv' : validate h' { t with size := t.size + 1 } p = .ok i := by
      rw [hip]
      refine validate_of_live hc (by rw [hh', List.length_append, length_setNode]; omega) ?_
      rw [← hip, ei]
      simpa using hlivp'
    refine ⟨?_, ?_, ?_, ?_⟩
    · unfold addLeft
      rw [hv]
      simp only [hlnone]
      rfl
    · unfold leftOp
      rw [hv']
      simp only [Except.map]
      rw [ei]
      rfl
    · unfold posElement
      rw [ej]
    · unfold numChildren
      rw [hv']
      simp only [Except.map]
      rw [ei]
      have : cnt = (if (nodeAt h i).right ≠ none then 1 else 0) := by
        rw [hcnt']
        simp [hlnone]
      rw [this]
      simp only [ne_eq, Option.some_ne_none, not_false_eq_true, if_true,
        reduceIte]
      congr 1
      omega
  · intro hocc
    unfold addLeft
    rw [hv]
    simp only [if_pos hocc]
  · intro hrnone
    set h' := setNode h i { nodeAt h i with right := some h.length } ++
      [(⟨e, some i, none, none⟩ : PyNode α)] with hh'
    have ei : nodeAt h' i = { nodeAt h i with right := some h.length } := by
      rw [hh', nodeAt_append_lt (by rw [length_setNode]; exact hilen'),
        nodeAt_set_self _ hilen']
    have ej : nodeAt h' h.length = ⟨e, some i, none, none⟩ := by
      have hx := nodeAt_append_self
        (h := setNode h i { nodeAt h i with right := some h.length })
        (⟨e, some i, none, none⟩ : PyNode α)
      rw [length_setNode] at hx
      exact hx
    have hv' : validate h' { t with size := t.size + 1 } p = .ok i := by
      rw [hip]
      refine validate_of_live hc (by rw [hh', List.length_append, length_setNode]; omega) ?_
      rw [← hip, ei]
      simpa using hlivp'
    refine ⟨?_, ?_, ?_, ?_⟩
    · unfold addRight
      rw [hv]
      simp only [hrnone]
      rfl
    · unfold rightOp
      rw [hv']
      simp only [Except.map]
      rw [ei]
      rfl
    · unfold posElement
      rw [ej]
    · unfold numChildren
      rw [hv']
      simp only [Except.map]
      rw [ei]
      have : cnt = (if (nodeAt h i).left ≠ none then 1 else 0) := by
        rw [hcnt']
        simp [hrnone]
      rw [this]
      simp only [ne_eq, Option.some_ne_none, not_false_eq_true, if_true,
        reduceIte]
  · intro hocc
    unfold addRight
    rw [hv]
    simp only [if_pos hocc]

/-- C6, witness: adding `'p'` under the leaf `'E'` of the `'M'/'E'/'Z'`
tree (both child slots of that leaf are free). -/
theorem c6_add_left_right_witness :
    (((nodeAt mezState.1 1).left = none →
      addLeft mezState.1 mezState.2 ⟨0, 1⟩ 'p' =
        (.ok ⟨mezState.2.id, mezState.1.length⟩,
         setNode mezState.1 1
           { nodeAt mezState.1 1 with left := some mezState.1.length } ++
           [⟨'p', some 1, none, none⟩],
         { mezState.2 with size := mezState.2.size + 1 }) ∧
      leftOp (setNode mezState.1 1
          { nodeAt mezState.1 1 with left := some mezState.1.length } ++
          [⟨'p', some 1, none, none⟩])
        { mezState.2 with size := mezState.2.size + 1 } ⟨0, 1⟩ =
        .ok (some ⟨mezState.2.id, mezState.1.length⟩) ∧
      posElement (setNode mezState.1 1
          { nodeAt mezState.1 1 with left := some mezState.1.length } ++
          [⟨'p', some 1, none, none⟩]) ⟨mezState.2.id, mezState.1.length⟩ = 'p' ∧
      numChildren (setNode mezState.1 1
          { nodeAt mezState.1 1 with left := some mezState.1.length } ++
          [⟨'p', some 1, none, none⟩])
        { mezState.2 with size := mezState.2.size + 1 } ⟨0, 1⟩ = .ok (0 + 1)) ∧
    ((nodeAt mezState.1 1).left ≠ none →
      addLeft mezState.1 mezState.2 ⟨0, 1⟩ 'p' =
        (.error (.valueErr "Left child already exist"), mezState.1, mezState.2)) ∧
    ((nodeAt mezState.1 1).right = none →
      addRight mezState.1 mezState.2 ⟨0, 1⟩ 'p' =
        (.ok ⟨mezState.2.id, mezState.1.length⟩,
         setNode mezState.1 1
           { nodeAt mezState.1 1 with right := some mezState.1.length } ++
           [⟨'p', some 1, none, none⟩],
         { mezState.2 with size := mezState.2.size + 1 }) ∧
      rightOp (setNode mezState.1 1
          { nodeAt mezState.1 1 with right := some mezState.1.length } ++
          [⟨'p', some 1, none, none⟩])
        { mezState.2 with size := mezState.2.size + 1 } ⟨0, 1⟩ =
        .ok (some ⟨mezState.2.id, mezState.1.length⟩) ∧
      posElement (setNode mezState.1 1
          { nodeAt mezState.1 1 with right := some mezState.1.length } ++
          [⟨'p', some 1, none, none⟩]) ⟨mezState.2.id, mezState.1.length⟩ = 'p' ∧
      numChildren (setNode mezState.1 1
          { nodeAt mezState.1 1 with right := some mezState.1.length } ++
          [⟨'p', some 1, none, none⟩])
        { mezState.2 with size := mezState.2.size + 1 } ⟨0, 1⟩ = .ok (0 + 1)) ∧
    ((nodeAt mezState.1 1).right ≠ none →
      addRight mezState.1 mezState.2 ⟨0, 1⟩ 'p' =
        (.error (.valueErr "Right child already exist"), mezState.1, mezState.2))) :=
  c6_add_left_right
    (show validate mezState.1 mezState.2 ⟨0, 1⟩ = .ok 1 from rfl)
    (show numChildren mezState.1 mezState.2 ⟨0, 1⟩ = .ok 0 from rfl) 'p'

/-- C8: inorder yields the left subtree first, then the subtree root, then
the right subtree, recursively (the defining recursion of
`_subtree_inorder`, here for a position with both children; a childless
position yields just itself); inorder is the default position iteration
(`positions()` returns `inorder()`); and on the tree built with root
`'M'`, left `'E'`, right `'Z'` the traversal yields elements
`['E', 'M', 'Z']`. -/
theorem c8_inorder {α : Type} [Inhabited α] {h : Heap α} {t : LBT}
    {p lp rp : Pos} {L R : List Pos} {fuel : Nat}
    (hl : leftOp h t p = .ok (some lp)) (hr : rightOp h t p = .ok (some rp))
    (hL : subtreeInorder h t fuel lp = .ok L)
    (hR : subtreeInorder h t fuel rp = .ok R) :
    subtreeInorder h t (fuel + 1) p = .ok (L ++ [p] ++ R) ∧
    (∀ (h' : Heap α) (t' : LBT), positionsOp h' t' = inorderOp h' t') ∧
    (inorderOp mezState.1 mezState.2).map (fun l => l.map (posElement mezState.1)) =
      .ok ['E', 'M', 'Z'] := by
    refine ⟨?_, fun _ _ => rfl, rfl⟩
    show (do
      let lo ← leftOp h t p
      let leftPart ← match lo with
        | some lq => subtreeInorder h t fuel lq
        | none => pure []
      let ro ← rightOp h t p
      let rightPart ← match ro with
        | some rq => subtreeInorder h t fuel rq
        | none => pure []
      pure (leftPart ++ [p] ++ rightPart) : Except PyErr (List Pos)) =
      .ok (L ++ [p] ++ R)
    rw [hl, hr]
    simp only [bind, Except.bind]
    rw [hL, hR]
    rfl

/-- C8, witness: the recursion equation instantiated on the `'M'/'E'/'Z'`
tree at its root. -/
theorem c8_inorder_witness :
    subtreeInorder mezState.1 mezState.2 (1 + 1) ⟨0, 0⟩ =
      .ok ([⟨0, 1⟩] ++ [⟨0, 0⟩] ++ [⟨0, 2⟩]) ∧
    (∀ (h' : Heap Char) (t' : LBT), positionsOp h' t' = inorderOp h' t') ∧
    (inorderOp mezState.1 mezState.2).map (fun l => l.map (posElement mezState.1)) =
      .ok ['E', 'M', 'Z'] :=
  c8_inorder
    (show leftOp mezState.1 mezState.2 ⟨0, 0⟩ = .ok (some ⟨0, 1⟩) from rfl)
    (show rightOp mezState.1 mezState.2 ⟨0, 0⟩ = .ok (some ⟨0, 2⟩) from rfl)
    (show subtreeInorder mezState.1 mezState.2 1 ⟨0, 1⟩ = .ok [⟨0, 1⟩] from rfl)
    (show subtreeInorder mezState.1 mezState.2 1 ⟨0, 2⟩ = .ok [⟨0, 2⟩] from rfl)

/-- C9: the breadth-first loop is a FIFO level-order: an empty fringe ends
the iteration, a dequeued position is yielded and its children are
enqueued at the back, left-to-right; the traversal of a non-empty tree is
the loop seeded with the root alone; and on the 3-level example tree
(root `'a'`, children `'b'`, `'c'`, grandchildren `'d'`, `'e'`) it yields
`['a', 'b', 'c', 'd', 'e']` — root first, children left-before-right,
then the grandchildren. -/
theorem c9_breadthfirst {α : Type} [Inhabited α] {h : Heap α} {t : LBT}
    {p : Pos} {rest cs L : List Pos} {fuel : Nat}
    (hcs : childrenOp h t p = .ok cs)
    (htail : bfsLoop h t fuel (rest ++ cs) = .ok L) :
    bfsLoop h t (fuel + 1) (p :: rest) = .ok (p :: L) ∧
    (∀ fuel' : Nat, bfsLoop h t (fuel' + 1) [] = (.ok [] : Except PyErr (List Pos))) ∧
    (∀ r, isEmptyT t = false → t.root = some r →
      breadthfirstOp h t = bfsLoop h t (h.length + 1) [⟨t.id, r⟩]) ∧
    (breadthfirstOp lvlState.1 lvlState.2).map
      (fun l => l.map (posElement lvlState.1)) = .ok ['a', 'b', 'c', 'd', 'e'] := by
  refine ⟨?_, fun _ => rfl, ?_, rfl⟩
  · show (do
      let cs' ← childrenOp h t p
      let tail ← bfsLoop h t fuel (rest ++ cs')
      pure (p :: tail) : Except PyErr (List Pos)) = .ok (p :: L)
    rw [hcs]
    simp only [bind, Except.bind]
    rw [htail]
    rfl
  · intro r hne hr
    unfold breadthfirstOp
    rw [hne]
    simp only [Bool.false_eq_true, if_false, rootPos, mkPos, hr, Option.map]

/-- C9, witness: the FIFO step instantiated on the 3-level example tree at
its root. -/
theorem c9_breadthfirst_witness :
    bfsLoop lvlState.1 lvlState.2 (5 + 1) [⟨0, 0⟩] =
      .ok (⟨0, 0⟩ :: [⟨0, 1⟩, ⟨0, 2⟩, ⟨0, 3⟩, ⟨0, 4⟩]) ∧
    (∀ fuel' : Nat, bfsLoop lvlState.1 lvlState.2 (fuel' + 1) [] =
      (.ok [] : Except PyErr (List Pos))) ∧
    (∀ r, isEmptyT lvlState.2 = false → lvlState.2.root = some r →
      breadthfirstOp lvlState.1 lvlState.2 =
        bfsLoop lvlState.1 lvlState.2 (lvlState.1.length + 1) [⟨lvlState.2.id, r⟩]) ∧
    (breadthfirstOp lvlState.1 lvlState.2).map
      (fun l => l.map (posElement lvlState.1)) = .ok ['a', 'b', 'c', 'd', 'e'] :=
  c9_breadthfirst
    (show childrenOp lvlState.1 lvlState.2 ⟨0, 0⟩ = .ok [⟨0, 1⟩, ⟨0, 2⟩] from rfl)
    (show bfsLoop lvlState.1 lvlState.2 5 ([] ++ [⟨0, 1⟩, ⟨0, 2⟩]) =
      .ok [⟨0, 1⟩, ⟨0, 2⟩, ⟨0, 3⟩, ⟨0, 4⟩] by decide)

/-- C10: `ArrayQueue.first` raises `Empty` on an empty queue; it never
writes anything, so the queue state it hands back is exactly the input
(same length, same front, same stored contents); and on a non-empty queue
it returns precisely the slot a subsequent `dequeue` would remove. -/
theorem c10_first_peeks {α : Type} (q : ArrayQueue α) :
    (q.size = 0 → AQfirst q = (.error (.emptyErr "Queue is empty"), q)) ∧
    (AQfirst q).2 = q ∧
    (q.size ≠ 0 →
      (AQfirst q).1 = .ok (q.data.getD q.front none) ∧
      (AQdequeue q).1 = (AQfirst q).1) := by
  refine ⟨?_, ?_, ?_⟩
  · intro h0
    unfold AQfirst
    rw [if_pos h0]
  · unfold AQfirst
    split <;> rfl
  · intro hne
    unfold AQfirst AQdequeue
    rw [if_neg hne, if_neg hne]
    exact ⟨rfl, rfl⟩

/-- C10, witness: the theorem applied to the queue holding `7` at the
front after one enqueue on a fresh `ArrayQueue`. -/
theorem c10_first_peeks_witness :
    ((AQenqueue (AQinit Nat) 7).size = 0 →
      AQfirst (AQenqueue (AQinit Nat) 7) =
        (.error (.emptyErr "Queue is empty"), AQenqueue (AQinit Nat) 7)) ∧
    (AQfirst (AQenqueue (AQinit Nat) 7)).2 = AQenqueue (AQinit Nat) 7 ∧
    ((AQenqueue (AQinit Nat) 7).size ≠ 0 →
      (AQfirst (AQenqueue (AQinit Nat) 7)).1 =
        .ok ((AQenqueue (AQinit Nat) 7).data.getD
          (AQenqueue (AQinit Nat) 7).front none) ∧
      (AQdequeue (AQenqueue (AQinit Nat) 7)).1 =
        (AQfirst (AQenqueue (AQinit Nat) 7)).1) :=
  c10_first_peeks (AQenqueue (AQinit Nat) 7)

/-- After a successful `delete`, the position's node is deprecated, so
validation against the resulting state fails with the invalidity error. -/
lemma delete_ok_deprecates {α : Type} [Inhabited α] {h : Heap α} {t : LBT}
    {p : Pos} {i : Nat} {res : α} {h' : Heap α} {t' : LBT} (hwf : WF h t)
    (hv : validate h t p = .ok i) (hdel : delete h t p = (.ok res, h', t')) :
    validate h' t' p = .error (.valueErr "p is no longer valid") := by
  obtain ⟨hc, hip, hilen, hlivp⟩ := validate_ok_iff.mp hv
  have hilen' : i < h.length := hip ▸ hilen
  have hcnt := numChildren_eq hv
  by_cases h2 : ((if (nodeAt h i).left ≠ none then 1 else 0) +
      (if (nodeAt h i).right ≠ none then 1 else 0)) = 2
  · exfalso
    have herr : delete h t p =
        (.error (.valueErr "p has 2 children and cannot be deleted."), h, t) := by
      unfold delete
      rw [hv, hcnt]
      simp only [if_pos h2]
    rw [herr] at hdel
    simp at hdel
  · have hdep : (nodeAt h' i).parent = some i ∧ h'.length = h.length ∧
        t'.id = t.id := by
      rcases delete_ok_cases hwf hv hcnt h2 with
        ⟨hroot, hchild, heq⟩ |
        ⟨c, hroot, hchild, hcne, hclen, hcpar, hpnone, heq⟩ |
        ⟨q, hroot, hchild, hq, hqlen, hqne, hqslot, heq⟩ |
        ⟨c, q, hroot, hchild, hcne, hclen, hcpar, hq, hqlen, hqne, hqc, hqslot, heq⟩
      · have hcomb := heq.symm.trans hdel
        simp only [Prod.mk.injEq] at hcomb
        have hH := hcomb.2.1
        have hT := hcomb.2.2
        rw [← hH, ← hT]
        refine ⟨?_, length_setNode .., rfl⟩
        rw [nodeAt_set_self _ hilen']
      · have hcomb := heq.symm.trans hdel
        simp only [Prod.mk.injEq] at hcomb
        have hH := hcomb.2.1
        have hT := hcomb.2.2
        rw [← hH, ← hT]
        refine ⟨?_, by rw [length_setNode, length_setNode], rfl⟩
        rw [nodeAt_set_self _ (by rw [length_setNode]; exact hilen')]
      · have hcomb := heq.symm.trans hdel
        simp only [Prod.mk.injEq] at hcomb
        have hH := hcomb.2.1
        have hT := hcomb.2.2
        rw [← hH, ← hT]
        refine ⟨?_, by rw [length_setNode, length_setNode], rfl⟩
        rw [nodeAt_set_self _ (by rw [length_setNode]; exact hilen')]
      · have hcomb := heq.symm.trans hdel
        simp only [Prod.mk.injEq] at hcomb
        have hH := hcomb.2.1
        have hT := hcomb.2.2
        rw [← hH, ← hT]
        refine ⟨?_, by rw [length_setNode, length_setNode, length_setNode], rfl⟩
        rw [nodeAt_set_self _
          (by rw [length_setNode, length_setNode]; exact hilen')]
    refine validate_deprecated (by rw [hc, hdep.2.2]) ?_ ?_
    · rw [← hip, hdep.2.1]
      exact hilen'
    · rw [← hip, hdep.1, hip]

/-- C2, counterexample: the claim also demands that a Position whose node
was attached into another tree subsequently fails validation.  It does
not: tree `0` holds the leaf `'x'`, tree `1` holds the root `'y'` whose
position `⟨1, 1⟩` was handed out by `add_root`; after
`attach(leaf-of-0, tree1, empty-tree2)` succeeds, the node has moved under
tree `0` (its parent is node `0`), yet the stale position still passes
tree `1`'s validation and returns the node instead of raising. -/
theorem c2_counterexample :
    (attachOp
        (addRoot (addRoot ([] : Heap Char) ⟨0, 0, none, 0⟩ 'x').2.1
          ⟨1, 0, none, 0⟩ 'y').2.1
        (addRoot ([] : Heap Char) ⟨0, 0, none, 0⟩ 'x').2.2 ⟨0, 0⟩
        (addRoot (addRoot ([] : Heap Char) ⟨0, 0, none, 0⟩ 'x').2.1
          ⟨1, 0, none, 0⟩ 'y').2.2 ⟨2, 0, none, 0⟩).1 = .ok () ∧
    (addRoot (addRoot ([] : Heap Char) ⟨0, 0, none, 0⟩ 'x').2.1
      ⟨1, 0, none, 0⟩ 'y').1 = .ok ⟨1, 1⟩ ∧
    (nodeAt attachedState.1 1).parent = some 0 ∧
    attachedState.2.2.1.id = 1 ∧
    validate attachedState.1 attachedState.2.2.1 ⟨1, 1⟩ = .ok 1 := by
  decide

/-- C2, amended: every Position-consuming operation runs `_validate` and
fails with the belonging error when the Position's container is a
different tree instance, and with the invalidity error when its node has
been deprecated; a successful `delete` deprecates the node so that the
position fails validation on next use.  (Attaching a node into another
tree, contrary to the original claim, is not detected: see the
counterexample.) -/
theorem c2_validation {α : Type} [Inhabited α] (h : Heap α) (t t1 t2 : LBT)
    (p : Pos) (e : α) :
    (p.container ≠ t.id →
      parentOp h t p = .error (.valueErr "p does not belong to this container") ∧
      leftOp h t p = .error (.valueErr "p does not belong to this container") ∧
      rightOp h t p = .error (.valueErr "p does not belong to this container") ∧
      numChildren h t p =
        .error (.valueErr "p does not belong to this container") ∧
      replaceOp h t p e =
        (.error (.valueErr "p does not belong to this container"), h) ∧
      addLeft h t p e =
        (.error (.valueErr "p does not belong to this container"), h, t) ∧
      addRight h t p e =
        (.error (.valueErr "p does not belong to this container"), h, t) ∧
      delete h t p =
        (.error (.valueErr "p does not belong to this container"), h, t) ∧
      attachOp h t p t1 t2 =
        (.error (.valueErr "p does not belong to this container"), h, t, t1, t2)) ∧
    (p.container = t.id → p.node < h.length →
      (nodeAt h p.node).parent = some p.node →
      parentOp h t p = .error (.valueErr "p is no longer valid") ∧
      leftOp h t p = .error (.valueErr "p is no longer valid") ∧
      rightOp h t p = .error (.valueErr "p is no longer valid") ∧
      numChildren h t p = .error (.valueErr "p is no longer valid") ∧
      replaceOp h t p e = (.error (.valueErr "p is no longer valid"), h) ∧
      addLeft h t p e = (.error (.valueErr "p is no longer valid"), h, t) ∧
      addRight h t p e = (.error (.valueErr "p is no longer valid"), h, t) ∧
      delete h t p = (.error (.valueErr "p is no longer valid"), h, t) ∧
      attachOp h t p t1 t2 =
        (.error (.valueErr "p is no longer valid"), h, t, t1, t2)) ∧
    (∀ (i : Nat) (res : α) (h' : Heap α) (t' : LBT), WF h t →
      validate h t p = .ok i → delete h t p = (.ok res, h', t') →
      validate h' t' p = .error (.valueErr "p is no longer valid")) := by
  refine ⟨?_, ?_, ?_⟩
  · intro hc
    have hval := validate_container_ne (h := h) (t := t) (p := p) hc
    refine ⟨?_, ?_, ?_, ?_, ?_, ?_, ?_, ?_, ?_⟩
    · unfold parentOp; rw [hval]; rfl
    · unfold leftOp; rw [hval]; rfl
    · unfold rightOp; rw [hval]; rfl
    · unfold numChildren; rw [hval]; rfl
    · unfold replaceOp; rw [hval]
    · unfold addLeft; rw [hval]
    · unfold addRight; rw [hval]
    · unfold delete; rw [hval]
    · unfold attachOp; rw [hval]
  · intro hc hn hd
    have hval := validate_deprecated (h := h) (t := t) (p := p) hc hn hd
    refine ⟨?_, ?_, ?_, ?_, ?_, ?_, ?_, ?_, ?_⟩
    · unfold parentOp; rw [hval]; rfl
    · unfold leftOp; rw [hval]; rfl
    · unfold rightOp; rw [hval]; rfl
    · unfold numChildren; rw [hval]; rfl
    · unfold replaceOp; rw [hval]
    · unfold addLeft; rw [hval]
    · unfold addRight; rw [hval]
    · unfold delete; rw [hval]
    · unfold attachOp; rw [hval]
  · intro i res h' t' hwf hv hdel
    exact delete_ok_deprecates hwf hv hdel

/-- C2, witness: a position carrying a foreign container identity is
rejected by `parent` on the `'M'/'E'/'Z'` tree. -/
theorem c2_validation_witness :
    parentOp mezState.1 mezState.2 ⟨5, 0⟩ =
      .error (.valueErr "p does not belong to this container") :=
  ((c2_validation mezState.1 mezState.2 ⟨1, 0, none, 0⟩ ⟨2, 0, none, 0⟩
      ⟨5, 0⟩ 'k').1 (by decide)).1

/-- Attach fixture: tree `0` holds the leaf `'L'`; tree `1` holds two
nodes `'y'` (root) and `'z'` (its left child); the components are the
arena, tree `0` and tree `1`. -/
def preAttach : Heap Char × LBT × LBT :=
  let s1 := addRoot ([] : Heap Char) ⟨0, 0, none, 0⟩ 'L'
  let s2 := addRoot s1.2.1 ⟨1, 0, none, 0⟩ 'y'
  let s3 := addLeft s2.2.1 s2.2.2 ⟨1, 1⟩ 'z'
  (s3.2.1, s1.2.2, s3.2.2)

/-- A tree record with no root and size zero is its own normal form. -/
lemma LBT_norm (t : LBT) (h1 : t.root = none) (h2 : t.size = 0) :
    t = { t with root := none, size := 0 } := by
  obtain ⟨a, b, c, d⟩ := t
  simp only at h1 h2
  rw [h1, h2]

/-- C4: `attach(p, t1, t2)` on a valid position fails with the
structural-conflict error unless `p` is a leaf, and with the type error
unless the three trees share one Python class (the source states check in
that order), leaving everything unchanged; on success it splices `t1`'s
root into `p`'s left slot and `t2`'s root into its right slot (each
spliced root's parent becoming `p`'s node; an empty donor leaves the slot
untouched), leaves `t1` and `t2` empty (`root` cleared, size `0`, so
`is_empty()` holds and no node is referenced by two trees), and sets the
size to exactly `len(t1) + len(t2)` with no other contribution. -/
theorem c4_attach {α : Type} [Inhabited α] {h : Heap α} {s t1 t2 : LBT}
    {p : Pos} {i : Nat} (hv : validate h s p = .ok i)
    (ht1 : t1.root = none ↔ t1.size = 0)
    (ht2 : t2.root = none ↔ t2.size = 0)
    (hr1 : ∀ r, t1.root = some r → r < h.length ∧ r ≠ i)
    (hr2 : ∀ r, t2.root = some r → r < h.length ∧ r ≠ i) :
    (isLeaf h s p = .ok false →
      attachOp h s p t1 t2 =
        (.error (.valueErr "position must be a leaf"), h, s, t1, t2)) ∧
    (isLeaf h s p = .ok true →
      ¬(s.pytype = t1.pytype ∧ t1.pytype = t2.pytype) →
      attachOp h s p t1 t2 =
        (.error (.typeErr "Tree types must match"), h, s, t1, t2)) ∧
    (isLeaf h s p = .ok true → s.pytype = t1.pytype → t1.pytype = t2.pytype →
      ∃ h', attachOp h s p t1 t2 =
          (.ok (), h', { s with size := t1.size + t2.size },
           { t1 with root := none, size := 0 },
           { t2 with root := none, size := 0 }) ∧
        h'.length = h.length ∧
        (∀ r1, t1.root = some r1 →
          (nodeAt h' i).left = some r1 ∧ (nodeAt h' r1).parent = some i) ∧
        (∀ r2, t2.root = some r2 →
          (nodeAt h' i).right = some r2 ∧ (nodeAt h' r2).parent = some i) ∧
        (t1.root = none → (nodeAt h' i).left = (nodeAt h i).left) ∧
        (t2.root = none → (nodeAt h' i).right = (nodeAt h i).right)) := by
  obtain ⟨hc, hip, hilen, hlivp⟩ := validate_ok_iff.mp hv
  have hilen' : i < h.length := hip ▸ hilen
  refine ⟨?_, ?_, ?_⟩
  · intro hleaf
    unfold attachOp
    rw [hv, hleaf]
    simp
  · intro hleaf hty
    unfold attachOp
    rw [hv, hleaf]
    simp only [Bool.true_eq_false, not_true_eq_false, if_neg, ite_false,
      Bool.not_true, if_pos hty]
  · intro hleaf hty1 hty2
    have hstep : attachOp h s p t1 t2 =
        (let s1 : LBT := { s with size := t1.size + t2.size }
         if t1.size ≠ 0 then
          match t1.root with
          | none => (.error (.attrErr "NoneType object has no attribute"), h, s1, t1, t2)
          | some r1 =>
            let hA := setNode h r1 { nodeAt h r1 with parent := some i }
            let hB := setNode hA i { nodeAt hA i with left := some r1 }
            let t1A : LBT := { t1 with root := none, size := 0 }
            if t2.size ≠ 0 then
              match t2.root with
              | none => (.error (.attrErr "NoneType object has no attribute"), hB, s1, t1A, t2)
              | some r2 =>
                let hC := setNode hB r2 { nodeAt hB r2 with parent := some i }
                let hD := setNode hC i { nodeAt hC i with right := some r2 }
                let t2A : LBT := { t2 with root := none, size := 0 }
                (.ok (), hD, s1, t1A, t2A)
            else (.ok (), hB, s1, t1A, t2)
         else
          if t2.size ≠ 0 then
            match t2.root with
            | none => (.error (.attrErr "NoneType object has no attribute"), h, s1, t1, t2)
            | some r2 =>
              let hC := setNode h r2 { nodeAt h r2 with parent := some i }
              let hD := setNode hC i { nodeAt hC i with right := some r2 }
              let t2A : LBT := { t2 with root := none, size := 0 }
              (.ok (), hD, s1, t1, t2A)
          else (.ok (), h, s1, t1, t2)) := by
      unfold attachOp
      rw [hv, hleaf]
      simp [hty1, hty2]
    rw [hstep]
    by_cases he1 : t1.size = 0
    · have hroot1 : t1.root = none := ht1.mpr he1
      by_cases he2 : t2.size = 0
      · -- both donors empty
        have hroot2 : t2.root = none := ht2.mpr he2
        refine ⟨h, ?_, rfl, ?_, ?_, fun _ => rfl, fun _ => rfl⟩
        · simp only [he1, he2, ne_eq, not_true_eq_false, if_neg, ite_false]
          rw [← LBT_norm t1 hroot1 he1, ← LBT_norm t2 hroot2 he2]
        · intro r1 hcr
          rw [hroot1] at hcr
          exact absurd hcr (by simp)
        · intro r2 hcr
          rw [hroot2] at hcr
          exact absurd hcr (by simp)
      · -- only t2 nonempty
        obtain ⟨r2, hroot2⟩ : ∃ r2, t2.root = some r2 := by
          rcases hx : t2.root with _ | r2
          · exact absurd (ht2.mp hx) he2
          · exact ⟨r2, rfl⟩
        obtain ⟨hr2len, hr2i⟩ := hr2 r2 hroot2
        set hC := setNode h r2 { nodeAt h r2 with parent := some i } with hhC
        set hD := setNode hC i { nodeAt hC i with right := some r2 } with hhD
        have hlenC : hC.length = h.length := length_setNode ..
        have hlenD : hD.length = h.length := by rw [hhD, length_setNode, hlenC]
        have eDi : nodeAt hD i = { nodeAt hC i with right := some r2 } := by
          rw [hhD, nodeAt_set_self _ (by rw [hlenC]; exact hilen')]
        have eCi : nodeAt hC i = nodeAt h i := by
          rw [hhC, nodeAt_set_ne _ (fun he => hr2i he.symm)]
        have eDr2 : nodeAt hD r2 = { nodeAt h r2 with parent := some i } := by
          rw [hhD, nodeAt_set_ne _ hr2i, hhC, nodeAt_set_self _ hr2len]
        refine ⟨hD, ?_, hlenD, ?_, ?_, ?_, ?_⟩
        · simp only [he1, ne_eq, not_true_eq_false, if_neg, ite_false,
            he2, hroot2]
          rw [← LBT_norm t1 hroot1 he1]
          simp [hhD, hhC]
        · intro r1 hcr
          rw [hroot1] at hcr
          exact absurd hcr (by simp)
        · intro r2' hcr
          rw [hroot2] at hcr
          have hrr : r2' = r2 := (Option.some_inj.mp hcr).symm
          rw [hrr]
          constructor
          · rw [eDi]
          · rw [eDr2]
        · intro _
          rw [eDi]
          show (nodeAt hC i).left = (nodeAt h i).left
          rw [eCi]
        · intro hcr
          rw [hroot2] at hcr
          exact absurd hcr (by simp)
    · -- t1 nonempty
      obtain ⟨r1, hroot1⟩ : ∃ r1, t1.root = some r1 := by
        rcases hx : t1.root with _ | r1
        · exact absurd (ht1.mp hx) he1
        · exact ⟨r1, rfl⟩
      obtain ⟨hr1len, hr1i⟩ := hr1 r1 hroot1
      set hA := setNode h r1 { nodeAt h r1 with parent := some i } with hhA
      set hB := setNode hA i { nodeAt hA i with left := some r1 } with hhB
      have hlenA : hA.length = h.length := length_setNode ..
      have hlenB : hB.length = h.length := by rw [hhB, length_setNode, hlenA]
      have eBi : nodeAt hB i = { nodeAt hA i with left := some r1 } := by
        rw [hhB, nodeAt_set_self _ (by rw [hlenA]; exact hilen')]
      have eAi : nodeAt hA i = nodeAt h i := by
        rw [hhA, nodeAt_set_ne _ (fun he => hr1i he.symm)]
      have eBr1 : nodeAt hB r1 = { nodeAt h r1 with parent := some i } := by
        rw [hhB, nodeAt_set_ne _ hr1i, hhA, nodeAt_set_self _ hr1len]
      by_cases he2 : t2.size = 0
      · -- only t1 nonempty
        have hroot2 : t2.root = none := ht2.mpr he2
        refine ⟨hB, ?_, hlenB, ?_, ?_, ?_, ?_⟩
        · simp only [he1, ne_eq, ite_not, he2, not_true_eq_false, if_neg,
            ite_false, hroot1]
          rw [← LBT_norm t2 hroot2 he2]
        · intro r1' hcr
          rw [hroot1] at hcr
          have hrr : r1' = r1 := (Option.some_inj.mp hcr).symm
          rw [hrr]
          constructor
          · rw [eBi]
          · rw [eBr1]
        · intro r2 hcr
          rw [hroot2] at hcr
          exact absurd hcr (by simp)
        · intro hcr
          rw [hroot1] at hcr
          exact absurd hcr (by simp)
        · intro _
          rw [eBi]
          show (nodeAt hA i).right = (nodeAt h i).right
          rw [eAi]
      · -- both nonempty
        obtain ⟨r2, hroot2⟩ : ∃ r2, t2.root = some r2 := by
          rcases hx : t2.root with _ | r2
          · exact absurd (ht2.mp hx) he2
          · exact ⟨r2, rfl⟩
        obtain ⟨hr2len, hr2i⟩ := hr2 r2 hroot2
        set hC := setNode hB r2 { nodeAt hB r2 with parent := some i } with hhC
        set hD := setNode hC i { nodeAt hC i with right := some r2 } with hhD
        have hlenC : hC.length = h.length := by rw [hhC, length_setNode, hlenB]
        have hlenD : hD.length = h.length := by rw [hhD, length_setNode, hlenC]
        have eDi : nodeAt hD i = { nodeAt hC i with right := some r2 } := by
          rw [hhD, nodeAt_set_self _ (by rw [hlenC]; exact hilen')]
        have eCi : nodeAt hC i = nodeAt hB i := by
          rw [hhC, nodeAt_set_ne _ (fun he => hr2i he.symm)]
        have eDr2 : nodeAt hD r2 = { nodeAt hB r2 with parent := some i } := by
          rw [hhD, nodeAt_set_ne _ hr2i, hhC, nodeAt_set_self _
            (by rw [hlenB]; exact hr2len)]
        refine ⟨hD, ?_, hlenD, ?_, ?_, ?_, ?_⟩
        · simp only [he1, ne_eq, ite_not, he2, if_neg, ite_false, hroot1,
            hroot2]
        · intro r1' hcr
          rw [hroot1] at hcr
          have hrr : r1' = r1 := (Option.some_inj.mp hcr).symm
          rw [hrr]
          constructor
          · rw [eDi]
            show (nodeAt hC i).left = some r1
            rw [eCi, eBi]
          · by_cases hr12 : r1 = r2
            · subst hr12
              rw [eDr2]
            · rw [hhD, nodeAt_set_ne _ hr1i, hhC, nodeAt_set_ne _ hr12, eBr1]
        · intro r2' hcr
          rw [hroot2] at hcr
          have hrr : r2' = r2 := (Option.some_inj.mp hcr).symm
          rw [hrr]
          constructor
          · rw [eDi]
          · rw [eDr2]
        · intro hcr
          rw [hroot1] at hcr
          exact absurd hcr (by simp)
        · intro hcr
          rw [hroot2] at hcr
          exact absurd hcr (by simp)

/-- C4, witness: attaching the two-node tree `1` and an empty tree `2`
below the leaf of tree `0` (the spec's own example shape). -/
theorem c4_attach_witness :
    (isLeaf preAttach.1 preAttach.2.1 ⟨0, 0⟩ = .ok false →
      attachOp preAttach.1 preAttach.2.1 ⟨0, 0⟩ preAttach.2.2 ⟨2, 0, none, 0⟩ =
        (.error (.valueErr "position must be a leaf"), preAttach.1,
         preAttach.2.1, preAttach.2.2, ⟨2, 0, none, 0⟩)) ∧
    (isLeaf preAttach.1 preAttach.2.1 ⟨0, 0⟩ = .ok true →
      ¬(preAttach.2.1.pytype = preAttach.2.2.pytype ∧
        preAttach.2.2.pytype = (⟨2, 0, none, 0⟩ : LBT).pytype) →
      attachOp preAttach.1 preAttach.2.1 ⟨0, 0⟩ preAttach.2.2 ⟨2, 0, none, 0⟩ =
        (.error (.typeErr "Tree types must match"), preAttach.1,
         preAttach.2.1, preAttach.2.2, ⟨2, 0, none, 0⟩)) ∧
    (isLeaf preAttach.1 preAttach.2.1 ⟨0, 0⟩ = .ok true →
      preAttach.2.1.pytype = preAttach.2.2.pytype →
      preAttach.2.2.pytype = (⟨2, 0, none, 0⟩ : LBT).pytype →
      ∃ h', attachOp preAttach.1 preAttach.2.1 ⟨0, 0⟩ preAttach.2.2
            ⟨2, 0, none, 0⟩ =
          (.ok (), h',
           { preAttach.2.1 with
              size := preAttach.2.2.size + (⟨2, 0, none, 0⟩ : LBT).size },
           { preAttach.2.2 with root := none, size := 0 },
           { (⟨2, 0, none, 0⟩ : LBT) with root := none, size := 0 }) ∧
        h'.length = preAttach.1.length ∧
        (∀ r1, preAttach.2.2.root = some r1 →
          (nodeAt h' 0).left = some r1 ∧ (nodeAt h' r1).parent = some 0) ∧
        (∀ r2, (⟨2, 0, none, 0⟩ : LBT).root = some r2 →
          (nodeAt h' 0).right = some r2 ∧ (nodeAt h' r2).parent = some 0) ∧
        (preAttach.2.2.root = none →
          (nodeAt h' 0).left = (nodeAt preAttach.1 0).left) ∧
        ((⟨2, 0, none, 0⟩ : LBT).root = none →
          (nodeAt h' 0).right = (nodeAt preAttach.1 0).right)) :=
  c4_attach
    (show validate preAttach.1 preAttach.2.1 ⟨0, 0⟩ = .ok 0 from rfl)
    (by decide) (by decide)
    (by intro r hr; simp only [show preAttach.2.2.root = some 1 from rfl,
      Option.some_inj] at hr; rw [← hr]; exact ⟨by decide, by decide⟩)
    (by intro r hr; exact absurd hr (by simp))

end PyAlgo
